import Mathlib

/-!
Verification development for the Monkey-style language implementation
(lexer / Pratt parser / tree-walking evaluator / bytecode compiler /
stack virtual machine), shallowly embedded from the Rust sources
(src/ast.rs, src/code.rs, src/object.rs, src/compiler.rs, src/vm.rs,
src/evaluator.rs, src/main.rs).

Representation conventions, fixed once here:

* Rust Vec values grown with push at the end are Lean lists ordered
  bottom-first: index 0 is the bottom of the VM value stack, push is
  append at the end, pop takes the last element.  This mirrors Vec
  indexing literally, so stack[frame_base + i] is List.get? (base + i).
* The Rust VM stores its instruction vector reversed and pops from the
  back (VM::new reverses, run pops).  Observably that is head-first
  consumption of the unreversed vector, so the embedding keeps
  instructions as a list consumed from the head; push_frame saving
  self.instructions.clone() becomes saving the remaining list.
* HashMap String/usize keyed maps are association lists with
  first-match lookup; insertion conses, which is observationally the
  HashMap insert-replaces behaviour under first-match lookup.
* Rust panics (unwrap, assert, panic) are modelled as Option.none; the
  i32 payload of Object::Int is an unbounded Int since no claim here
  depends on wrap-around, except the i32-to-usize cast of array
  indexing, which is modelled exactly (mod 2^64).
* Machine divergence is handled with step fuel; running out of fuel is
  a distinct outcome from normal or fatal termination.
-/

/-! ## The AST consumed by the compiler and evaluator (src/ast.rs as used
by src/compiler.rs and src/evaluator.rs: Str and Array expression forms
included, child nodes unwrapped).  Constructor names avoid Lean
keywords; pre is the prefix-operator node and bin the infix node. -/

mutual

inductive Expression where
  | ident (name : String)
  | int (v : String)
  | str (s : String)
  | bool (v : String)
  | arr (elems : List Expression)
  | pre (operator : String) (expr : Expression)
  | bin (operator : String) (left : Expression) (right : Expression)
  | cond (condition : Expression) (consequence : Statement) (alternative : Statement)
  | func (parameters : List Expression) (body : Statement)
  | call (function : Expression) (arguments : List Expression)
  deriving Repr

inductive Statement where
  | letS (ident : Expression) (expr : Expression)
  | ret (expr : Expression)
  | expr (expr : Expression)
  | block (stmts : List Statement)
  deriving Repr

end

/-! ## Runtime values, instructions and evaluator environments
(src/object.rs, src/code.rs).  Object::CompiledFunction holds an
instruction vector, hence the mutual block; the evaluator-only
Object::Function holds a captured Environment. -/

mutual

inductive Object where
  | int (v : Int)
  | str (s : String)
  | bool (b : Bool)
  | null
  | ret (o : Object)
  | arr (elems : List Object)
  | function (parameters : List Expression) (body : Statement) (env : Environment)
  | compiledFunction (instructions : List Code) (numLocals : Nat) (numParas : Nat)

inductive Code where
  | constant (obj : Object)
  | pop
  | add
  | sub
  | mul
  | div
  | true
  | false
  | equal
  | notEqual
  | greaterThan
  | lessThan
  | minus
  | bang
  | jumpNotTruthy (offset : Nat)
  | jump (offset : Nat)
  | null
  | setGlobal (index : Nat)
  | getGlobal (index : Nat)
  | array (size : Nat)
  | index
  | returnValue
  | returnNone
  | callOp (numArgs : Nat)
  | setLocal (index : Nat)
  | getLocal (index : Nat)

inductive Environment where
  | mk (env : List (String × Object)) (outer : Option Environment)

end

/-! ## Symbol table (src/code.rs). -/

/-- Scope kind of a symbol (src/code.rs Scope); localS names Scope::Local
since that word is reserved in Lean. -/
inductive Scope where
  | global
  | localS
  deriving Repr

structure MSym where
  name : String
  scope : Scope
  index : Nat
  deriving Repr

/-- SymbolTable (src/code.rs): outer chain, name-keyed map, definition
counter.  An inductive rather than a structure because the chain is
recursive. -/
inductive SymbolTable where
  | mk (outer : Option SymbolTable) (map : List (String × MSym)) (numDefinitions : Nat)

def SymbolTable.outer : SymbolTable → Option SymbolTable
  | .mk o _ _ => o

def SymbolTable.map : SymbolTable → List (String × MSym)
  | .mk _ m _ => m

def SymbolTable.numDefinitions : SymbolTable → Nat
  | .mk _ _ n => n

/-- First-match association-list lookup, standing in for HashMap::get. -/
def alookup {α : Type} : List (String × α) → String → Option α
  | [], _ => none
  | (k, v) :: rest, name => if k = name then some v else alookup rest name

/-- SymbolTable::define: assign index = num_definitions, increment the
counter, insert (replacing any prior binding of the name under
first-match lookup), scope Local iff an outer table exists. -/
def SymbolTable.define : SymbolTable → String → MSym × SymbolTable
  | .mk outer map nd, name =>
    let symbol : MSym :=
      ⟨name, match outer with | some _ => Scope.localS | none => Scope.global, nd⟩
    (symbol, .mk outer ((name, symbol) :: map) (nd + 1))

/-- SymbolTable::resolve: search the current map first; on a miss recurse
into the outer table; absent at the root. -/
def SymbolTable.resolve : SymbolTable → String → Option MSym
  | .mk outer map _, name =>
    match alookup map name with
    | some sym => some sym
    | none =>
      match outer with
      | some o => o.resolve name
      | none => none

/-! ## Compiler (src/compiler.rs). -/

structure CompilerState where
  scopes : List (List Code)
  instructions : List Code
  symbolTable : SymbolTable

/-- Append one instruction (Vec::push on self.instructions). -/
def emit (code : Code) (st : CompilerState) : CompilerState :=
  { st with instructions := st.instructions ++ [code] }

/-- Vec::swap_remove(i): replace the element at i with the last element
and shrink by one; none when i is out of bounds (Rust panics). -/
def vswapRemove {α : Type} (l : List α) (i : Nat) : Option (List α) :=
  match l.getLast? with
  | none => none
  | some last => if i < l.length then some ((l.set i last).dropLast) else none

/-- The trailing-Pop strip in compile_if: pop the last instruction
(unwrap), drop it when it is Pop, otherwise push it back. -/
def stripPop (st : CompilerState) : Option CompilerState :=
  match st.instructions.getLast? with
  | none => none
  | some Code.pop => some { st with instructions := st.instructions.dropLast }
  | some _ => some st

/-- Consequence patching in compile_if: offset = len - pos, push
JumpNotTruthy(offset), swap_remove the placeholder at pos. -/
def patchCons (pos : Nat) (st : CompilerState) : Option CompilerState :=
  match stripPop st with
  | none => none
  | some st1 =>
    let offset := st1.instructions.length - pos
    match vswapRemove (st1.instructions ++ [Code.jumpNotTruthy offset]) pos with
    | none => none
    | some instrs => some { st1 with instructions := instrs }

/-- Alternative patching in compile_if: offset = len - 1 - pos; when it
is zero emit a Null pad and use offset 1; push Jump(offset) and
swap_remove the placeholder at pos. -/
def patchAlt (pos : Nat) (st : CompilerState) : Option CompilerState :=
  match stripPop st with
  | none => none
  | some st1 =>
    let offset := st1.instructions.length - 1 - pos
    let padded := if offset = 0 then (emit Code.null st1, 1) else (st1, offset)
    match vswapRemove (padded.1.instructions ++ [Code.jump padded.2]) pos with
    | none => none
    | some instrs => some { padded.1 with instructions := instrs }

/-- Compiler::enter_scope: save the active instruction vector, start an
empty one, push a fresh symbol table with the previous one as outer.
The saved-scopes Vec is pushed/popped at the end only, so its Lean list
keeps the most recent save at the head. -/
def enterScope (st : CompilerState) : CompilerState :=
  { scopes := st.instructions :: st.scopes,
    instructions := [],
    symbolTable := .mk (some st.symbolTable) [] 0 }

/-- Compiler::leave_scope: read num_locals from the inner table, restore
the outer table and the saved instruction vector, return the function
body instructions.  none when there is no outer table or no saved scope
(both unwraps in Rust). -/
def leaveScope (st : CompilerState) : Option (List Code × Nat × CompilerState) :=
  match st.symbolTable, st.scopes with
  | .mk (some t) _ nd, prev :: rest =>
    some (st.instructions, nd, ⟨rest, prev, t⟩)
  | _, _ => none

/-- Parameter definition loop of compile_function: each parameter must be
an Ident and is defined in order. -/
def defineParams : List Expression → CompilerState → Option CompilerState
  | [], st => some st
  | Expression.ident name :: rest, st =>
    defineParams rest { st with symbolTable := (st.symbolTable.define name).2 }
  | _ :: _, _ => none

/-- Function-body post-processing in compile_function: a trailing Pop
becomes ReturnValue, an empty body becomes Return, anything else is kept;
then the CompiledFunction constant is emitted in the restored scope. -/
def finishFunction (numParas : Nat) (st : CompilerState) : Option CompilerState :=
  match leaveScope st with
  | none => none
  | some (instrs, numLocals, st1) =>
    let body :=
      match instrs.getLast? with
      | some Code.pop => instrs.dropLast ++ [Code.returnValue]
      | none => [Code.returnNone]
      | some _ => instrs
    some (emit (Code.constant (Object.compiledFunction body numLocals numParas)) st1)

/-- One base-10 digit. -/
def digitVal (c : Char) : Option Nat :=
  if 48 ≤ c.toNat ∧ c.toNat ≤ 57 then some (c.toNat - 48) else none

/-- Left-to-right accumulation of base-10 digits; none on a non-digit. -/
def parseDigits : List Char → Nat → Option Nat
  | [], acc => some acc
  | c :: rest, acc =>
    match digitVal c with
    | none => none
    | some d => parseDigits rest (acc * 10 + d)

/-- i32::from_str_radix(v, 10) as used by compile_int and the evaluator:
an optional sign, a nonempty run of base-10 digits, and the i32 range
check (out-of-range input is an error).  Modelled directly over the
character data. -/
def parseI32 (s : String) : Option Int :=
  let core : Option Int :=
    match s.data with
    | [] => none
    | '-' :: rest =>
      if rest = [] then none
      else (parseDigits rest 0).map (fun n => -(n : Int))
    | '+' :: rest =>
      if rest = [] then none
      else (parseDigits rest 0).map (fun n => (n : Int))
    | ds => (parseDigits ds 0).map (fun n => (n : Int))
  match core with
  | some v => if -(2 ^ 31) ≤ v ∧ v < 2 ^ 31 then some v else none
  | none => none

mutual

/-- Compiler::compile_statement. -/
def compileStatement : Statement → CompilerState → Option CompilerState
  | .letS ident expr, st =>
    match compileExpression expr st with
    | none => none
    | some st1 =>
      match ident with
      | .ident name =>
        let defined := st1.symbolTable.define name
        let st2 := { st1 with symbolTable := defined.2 }
        match defined.1.scope with
        | .global => some (emit (Code.setGlobal defined.1.index) st2)
        | .localS => some (emit (Code.setLocal defined.1.index) st2)
      | _ => none
  | .ret expr, st =>
    match compileExpression expr st with
    | none => none
    | some st1 => some (emit Code.returnValue st1)
  | .expr e, st =>
    match compileExpression e st with
    | none => none
    | some st1 => some (emit Code.pop st1)
  | .block stmts, st => compileStatements stmts st

/-- The statement loop of Compiler::run and of block compilation. -/
def compileStatements : List Statement → CompilerState → Option CompilerState
  | [], st => some st
  | s :: rest, st =>
    match compileStatement s st with
    | none => none
    | some st' => compileStatements rest st'

/-- Compiler::compile_expression (with compile_ident, compile_int,
compile_bool, compile_array, compile_prefix, compile_infix, compile_if,
compile_function and compile_call inlined at their call sites). -/
def compileExpression : Expression → CompilerState → Option CompilerState
  | .ident v, st =>
    match st.symbolTable.resolve v with
    | some ⟨_, Scope.global, i⟩ => some (emit (Code.getGlobal i) st)
    | some ⟨_, Scope.localS, i⟩ => some (emit (Code.getLocal i) st)
    | none => none
  | .int v, st =>
    match parseI32 v with
    | some n => some (emit (Code.constant (Object.int n)) st)
    | none => none
  | .str s, st => some (emit (Code.constant (Object.str s)) st)
  | .bool v, st =>
    if v = "true" then some (emit Code.true st)
    else if v = "false" then some (emit Code.false st)
    else none
  | .arr exprs, st =>
    match compileExpressions exprs st with
    | none => none
    | some st1 => some (emit (Code.array exprs.length) st1)
  | .pre operator e, st =>
    match compileExpression e st with
    | none => none
    | some st1 =>
      if operator = "-" then some (emit Code.minus st1)
      else if operator = "!" then some (emit Code.bang st1)
      else none
  | .bin operator l r, st =>
    match compileExpression l st with
    | none => none
    | some st1 =>
      match compileExpression r st1 with
      | none => none
      | some st2 =>
        if operator = "+" then some (emit Code.add st2)
        else if operator = "-" then some (emit Code.sub st2)
        else if operator = "*" then some (emit Code.mul st2)
        else if operator = "/" then some (emit Code.div st2)
        else if operator = "==" then some (emit Code.equal st2)
        else if operator = "!=" then some (emit Code.notEqual st2)
        else if operator = ">" then some (emit Code.greaterThan st2)
        else if operator = "<" then some (emit Code.lessThan st2)
        else if operator = "[" then some (emit Code.index st2)
        else none
  | .cond c cons alt, st =>
    match compileExpression c st with
    | none => none
    | some st1 =>
      let pos := st1.instructions.length
      match compileStatement cons (emit (Code.jumpNotTruthy 9999) st1) with
      | none => none
      | some st3 =>
        match patchCons pos st3 with
        | none => none
        | some st4 =>
          let pos2 := st4.instructions.length
          match compileStatement alt (emit (Code.jump 9999) st4) with
          | none => none
          | some st6 => patchAlt pos2 st6
  | .func params body, st =>
    match defineParams params (enterScope st) with
    | none => none
    | some st1 =>
      match compileStatement body st1 with
      | none => none
      | some st2 => finishFunction params.length st2
  | .call f args, st =>
    match compileExpression f st with
    | none => none
    | some st1 =>
      match compileExpressions args st1 with
      | none => none
      | some st2 => some (emit (Code.callOp args.length) st2)

/-- The left-to-right expression loops of compile_array and
compile_call. -/
def compileExpressions : List Expression → CompilerState → Option CompilerState
  | [], st => some st
  | e :: rest, st =>
    match compileExpression e st with
    | none => none
    | some st' => compileExpressions rest st'

end

/-- Compiler::run on an already-parsed statement list: compile every
statement from an empty instruction vector, return the instructions and
the final symbol table. -/
def compilerRun (input : List Statement) (symbolTable : SymbolTable) :
    Option (List Code × SymbolTable) :=
  match compileStatements input ⟨[], [], symbolTable⟩ with
  | none => none
  | some st => some (st.instructions, st.symbolTable)

/-! ## Virtual machine (src/vm.rs).

The Rust VM reverses the instruction vector once in VM::new and then
pops instructions from the back; the embedding keeps the unreversed
vector and consumes its head, which is the same consumption order.
The value stack is a bottom-first list mirroring Vec indexing. -/

abbrev Globals := List (Nat × Object)

/-- HashMap::get on the usize-keyed globals map. -/
def glookup : Globals → Nat → Option Object
  | [], _ => none
  | (k, v) :: rest, i => if k = i then some v else glookup rest i

/-- HashMap::insert on the globals map (replace under first-match
lookup). -/
def ginsert (g : Globals) (i : Nat) (v : Object) : Globals :=
  (i, v) :: g

/-- A call frame: the caller's remaining instructions and the base index
into the value stack at which the callee's arguments and locals begin
(src/vm.rs Frame). -/
structure Frame where
  instructions : List Code
  base : Nat

/-- The VM state (src/vm.rs VM).  frames keeps the most recent frame at
the head (Vec push/pop at the end).  jump is the skip counter. -/
structure VMState where
  frames : List Frame
  instructions : List Code
  stack : List Object
  base : Nat
  lastPopped : Option Object
  jump : Nat
  globals : Globals

/-- Vec::push on the value stack. -/
def vpush (s : List Object) (o : Object) : List Object := s ++ [o]

/-- Vec::pop: the last element and the remainder. -/
def vpop {α : Type} (l : List α) : Option (α × List α) :=
  match l.getLast? with
  | none => none
  | some x => some (x, l.dropLast)

/-- VM::push_frame: save the caller's remaining instructions together
with the callee's base, install the callee's instructions, set base. -/
def pushFrame (instructions : List Code) (base : Nat) (s : VMState) : VMState :=
  { s with frames := ⟨s.instructions, base⟩ :: s.frames,
           instructions := instructions,
           base := base }

/-- VM::pop_frame: restore the saved caller instructions and truncate
the stack down to the popped frame's base.  Note that self.base is NOT
restored here, exactly as in src/vm.rs lines 97-103. -/
def popFrame (s : VMState) : Option VMState :=
  match s.frames with
  | [] => none
  | fr :: rest =>
    some { s with frames := rest,
                  instructions := fr.instructions,
                  stack := s.stack.take fr.base }

/-- VM::execute_arithmetic: Int op Int for Add/Sub/Mul/Div (division is
Rust i32 division: truncation toward zero, fatal on zero divisor), and
Str ++ Str for Add; every other shape is fatal. -/
def executeArithmetic (op : Code) (s : VMState) : Option VMState :=
  match vpop s.stack with
  | none => none
  | some (Object.int r, stack1) =>
    match vpop stack1 with
    | none => none
    | some (Object.int l, stack2) =>
      match op with
      | Code.add => some { s with stack := vpush stack2 (Object.int (l + r)) }
      | Code.sub => some { s with stack := vpush stack2 (Object.int (l - r)) }
      | Code.mul => some { s with stack := vpush stack2 (Object.int (l * r)) }
      | Code.div =>
        if r = 0 then none
        else some { s with stack := vpush stack2 (Object.int (Int.tdiv l r)) }
      | _ => none
    | some (_, _) => none
  | some (Object.str r, stack1) =>
    match vpop stack1 with
    | none => none
    | some (Object.str l, stack2) =>
      match op with
      | Code.add => some { s with stack := vpush stack2 (Object.str (l ++ r)) }
      | _ => none
    | some (_, _) => none
  | some (_, _) => none

/-- VM::execute_comparison: Equal/NotEqual/GreaterThan/LessThan on
Int x Int, Equal/NotEqual on Bool x Bool, anything else fatal. -/
def executeComparison (op : Code) (s : VMState) : Option VMState :=
  match vpop s.stack with
  | none => none
  | some (Object.int r, stack1) =>
    match vpop stack1 with
    | none => none
    | some (Object.int l, stack2) =>
      match op with
      | Code.equal => some { s with stack := vpush stack2 (Object.bool (l == r)) }
      | Code.notEqual => some { s with stack := vpush stack2 (Object.bool (l != r)) }
      | Code.greaterThan => some { s with stack := vpush stack2 (Object.bool (decide (l > r))) }
      | Code.lessThan => some { s with stack := vpush stack2 (Object.bool (decide (l < r))) }
      | _ => none
    | some (_, _) => none
  | some (Object.bool r, stack1) =>
    match vpop stack1 with
    | none => none
    | some (Object.bool l, stack2) =>
      match op with
      | Code.equal => some { s with stack := vpush stack2 (Object.bool (l == r)) }
      | Code.notEqual => some { s with stack := vpush stack2 (Object.bool (l != r)) }
      | _ => none
    | some (_, _) => none
  | some (_, _) => none

/-- VM::execute_prefix: Minus on Int; Bang on Bool or Null. -/
def executePre (operator : Code) (s : VMState) : Option VMState :=
  match operator with
  | Code.minus =>
    match vpop s.stack with
    | some (Object.int v, stack1) => some { s with stack := vpush stack1 (Object.int (-v)) }
    | some (_, _) => none
    | none => none
  | Code.bang =>
    match vpop s.stack with
    | some (Object.bool v, stack1) => some { s with stack := vpush stack1 (Object.bool (!v)) }
    | some (Object.null, stack1) => some { s with stack := vpush stack1 (Object.bool Bool.true) }
    | some (_, _) => none
    | none => none
  | _ => some s

/-- VM::execute_jump: set the skip counter. -/
def executeJump (offset : Nat) (s : VMState) : VMState :=
  { s with jump := offset }

/-- VM::execute_jump_not_truthy: pop; jump when the value is Bool(false)
or Null, otherwise fall through. -/
def executeJumpNotTruthy (offset : Nat) (s : VMState) : Option VMState :=
  match vpop s.stack with
  | none => none
  | some (Object.bool Bool.false, stack1) => some (executeJump offset { s with stack := stack1 })
  | some (Object.null, stack1) => some (executeJump offset { s with stack := stack1 })
  | some (_, stack1) => some { s with stack := stack1 }

/-- The pop loop of VM::execute_array: pop size values (fatal when the
stack runs dry), in pop order. -/
def popN : Nat → List Object → Option (List Object × List Object)
  | 0, stack => some ([], stack)
  | n + 1, stack =>
    match vpop stack with
    | none => none
    | some (x, rest) =>
      match popN n rest with
      | none => none
      | some (xs, rest') => some (x :: xs, rest')

/-- VM::execute_array: pop size values, reverse them back into source
order, push the Array. -/
def executeArray (size : Nat) (s : VMState) : Option VMState :=
  match popN size s.stack with
  | none => none
  | some (popped, rest) => some { s with stack := vpush rest (Object.arr popped.reverse) }

/-- The i32-to-usize cast in execute_index (index as usize on a 64-bit
target): sign-extend and reinterpret, i.e. reduce modulo 2^64. -/
def usizeOfI32 (v : Int) : Nat := (v % (2 : Int) ^ 64).toNat

/-- VM::execute_index: pop the index (must be Int), pop the array (must
be Array), push the element at the cast index or Null when out of
range. -/
def executeIndexOp (s : VMState) : Option VMState :=
  match vpop s.stack with
  | none => none
  | some (Object.int v, stack1) =>
    match vpop stack1 with
    | none => none
    | some (Object.arr elems, stack2) =>
      match elems.get? (usizeOfI32 v) with
      | some o => some { s with stack := vpush stack2 o }
      | none => some { s with stack := vpush stack2 Object.null }
    | some (_, _) => none
  | some (_, _) => none

/-- VM::execute_call: the value num_args below the top must be a
CompiledFunction of matching arity; remove it, push a frame with
base = stack.len() - num_args, install the body, then push num_locals
Nulls. -/
def executeCall (numArgs : Nat) (s : VMState) : Option VMState :=
  if s.stack.length < numArgs + 1 then none
  else
    let idx := s.stack.length - numArgs - 1
    match s.stack.get? idx with
    | some (Object.compiledFunction instrs numLocals numParas) =>
      if numArgs = numParas then
        let stack1 := s.stack.eraseIdx idx
        let base := stack1.length - numArgs
        let s1 := pushFrame instrs base { s with stack := stack1 }
        some { s1 with stack := s1.stack ++ List.replicate numLocals Object.null }
      else none
    | some _ => none
    | none => none

/-- VM::execute_return_value: pop the return value, pop the frame
(truncating to its base), push the value back. -/
def executeReturnValue (s : VMState) : Option VMState :=
  match vpop s.stack with
  | none => none
  | some (v, stack1) =>
    match popFrame { s with stack := stack1 } with
    | none => none
    | some s1 => some { s1 with stack := vpush s1.stack v }

/-- VM::execute_return: pop the frame and push Null. -/
def executeReturn (s : VMState) : Option VMState :=
  match popFrame s with
  | none => none
  | some s1 => some { s1 with stack := vpush s1.stack Object.null }

/-- VM::execute: one instruction, on a state whose instruction list has
already had this instruction removed (the Rust loop pops, then
executes). -/
def execute (s : VMState) : Code → Option VMState
  | Code.constant obj => some { s with stack := vpush s.stack obj }
  | Code.add => executeArithmetic Code.add s
  | Code.sub => executeArithmetic Code.sub s
  | Code.mul => executeArithmetic Code.mul s
  | Code.div => executeArithmetic Code.div s
  | Code.equal => executeComparison Code.equal s
  | Code.notEqual => executeComparison Code.notEqual s
  | Code.greaterThan => executeComparison Code.greaterThan s
  | Code.lessThan => executeComparison Code.lessThan s
  | Code.true => some { s with stack := vpush s.stack (Object.bool Bool.true) }
  | Code.false => some { s with stack := vpush s.stack (Object.bool Bool.false) }
  | Code.minus => executePre Code.minus s
  | Code.bang => executePre Code.bang s
  | Code.pop =>
    match vpop s.stack with
    | none => some { s with lastPopped := none }
    | some (v, rest) => some { s with stack := rest, lastPopped := some v }
  | Code.jumpNotTruthy offset => executeJumpNotTruthy offset s
  | Code.jump offset => some (executeJump offset s)
  | Code.null => some { s with stack := vpush s.stack Object.null }
  | Code.setGlobal i =>
    match vpop s.stack with
    | none => none
    | some (v, rest) => some { s with stack := rest, globals := ginsert s.globals i v }
  | Code.getGlobal i =>
    match glookup s.globals i with
    | none => none
    | some v => some { s with stack := vpush s.stack v }
  | Code.array size => executeArray size s
  | Code.index => executeIndexOp s
  | Code.returnValue => executeReturnValue s
  | Code.returnNone => executeReturn s
  | Code.callOp numArgs => executeCall numArgs s
  | Code.setLocal i =>
    match vswapRemove s.stack (s.base + i) with
    | none => none
    | some stack1 => some { s with stack := stack1 }
  | Code.getLocal i =>
    match s.stack.get? (s.base + i) with
    | none => none
    | some v => some { s with stack := vpush s.stack v }

/-- One iteration of the VM::run loop: halt when the instructions are
exhausted; otherwise remove the next instruction and either execute it
(skip counter zero) or decrement the skip counter. -/
inductive StepRes where
  | halt (s : VMState)
  | fatal
  | next (s : VMState)

def stepOnce (s : VMState) : StepRes :=
  match s.instructions with
  | [] => .halt s
  | code :: rest =>
    let s1 := { s with instructions := rest }
    if s.jump = 0 then
      match execute s1 code with
      | none => .fatal
      | some s2 => .next s2
    else .next { s1 with jump := s.jump - 1 }

/-- The run loop with step fuel; running out of fuel is distinct from
halting and from a fatal error. -/
inductive RunOutcome where
  | ok (final : VMState)
  | fatal
  | outOfFuel

def runFuel : Nat → VMState → RunOutcome
  | 0, _ => .outOfFuel
  | n + 1, s =>
    match stepOnce s with
    | .halt t => .ok t
    | .fatal => .fatal
    | .next s' => runFuel n s'

/-- n individual next-steps, for naming intermediate states. -/
def iter : Nat → VMState → Option VMState
  | 0, s => some s
  | n + 1, s =>
    match stepOnce s with
    | .next s' => iter n s'
    | _ => none

/-- VM::new: empty frames and stack, base 0, skip counter 0. -/
def vmNew (instructions : List Code) (globals : Globals) : VMState :=
  ⟨[], instructions, [], 0, none, 0, globals⟩

/-- The final tuple of VM::run: the popped stack top (Null when the
stack is empty), last_popped, and the globals. -/
def vmFinish (s : VMState) : Object × Option Object × Globals :=
  match vpop s.stack with
  | some (obj, _) => (obj, s.lastPopped, s.globals)
  | none => (Object.null, s.lastPopped, s.globals)

/-! ## Tree-walking evaluator (src/evaluator.rs, src/object.rs
Environment).  All functions burn one unit of fuel per call, since
eval_call recurses through function objects rather than through the
AST.  The evaluator snapshot has no Str or Array expression arms (the
ast.rs it was built against has neither), so those inputs are outside
its domain. -/

def Environment.entries : Environment → List (String × Object)
  | .mk e _ => e

def Environment.outerEnv : Environment → Option Environment
  | .mk _ o => o

/-- Environment::get: current map first, then the outer chain; a miss at
the root is a panic in Rust, modelled as none. -/
def envGet : Environment → String → Option Object
  | .mk e outer, key =>
    match alookup e key with
    | some v => some v
    | none =>
      match outer with
      | some o => envGet o key
      | none => none

/-- Environment::set. -/
def envSet : Environment → String → Object → Environment
  | .mk e o, k, v => .mk ((k, v) :: e) o

mutual

/-- Evaluator::eval_statement: Expr, Return (wrapping in Object::Return)
and Let on an identifier; every other statement is a panic. -/
def evalStatement : Nat → Statement → Environment → Option (Object × Environment)
  | 0, _, _ => none
  | fuel + 1, .expr e, env => evalExpression fuel e env
  | fuel + 1, .ret e, env =>
    match evalExpression fuel e env with
    | none => none
    | some (o, env') => some (Object.ret o, env')
  | fuel + 1, .letS (.ident name) e, env =>
    match evalExpression fuel e env with
    | none => none
    | some (v, env') => some (Object.null, envSet env' name v)
  | _ + 1, .letS _ _, _ => none
  | _ + 1, .block _, _ => none

/-- Evaluator::eval_block: the statement loop with NULL start and early
exit on Object::Return; panics when the argument is not a Block. -/
def evalBlock : Nat → Statement → Environment → Option (Object × Environment)
  | 0, _, _ => none
  | fuel + 1, .block stmts, env => evalStmtList fuel stmts Object.null env
  | _ + 1, _, _ => none

def evalStmtList : Nat → List Statement → Object → Environment → Option (Object × Environment)
  | 0, _, _, _ => none
  | _ + 1, [], result, env => some (result, env)
  | fuel + 1, s :: rest, _, env =>
    match evalStatement fuel s env with
    | none => none
    | some (Object.ret o, env') => some (Object.ret o, env')
    | some (r, env') => evalStmtList fuel rest r env'

/-- Evaluator::eval_expression. -/
def evalExpression : Nat → Expression → Environment → Option (Object × Environment)
  | 0, _, _ => none
  | _ + 1, .int v, env =>
    match parseI32 v with
    | some n => some (Object.int n, env)
    | none => none
  | _ + 1, .bool v, env =>
    some (Object.bool (if v = "true" then Bool.true else Bool.false), env)
  | fuel + 1, .pre operator e, env => evalPre fuel operator e env
  | fuel + 1, .bin operator l r, env => evalBin fuel operator l r env
  | fuel + 1, .cond c cons alt, env => evalIf fuel c cons alt env
  | _ + 1, .ident name, env =>
    match envGet env name with
    | some o => some (o, env)
    | none => none
  | _ + 1, .func params body, env => some (Object.function params body env, env)
  | fuel + 1, .call f args, env => evalCall fuel f args env
  | _ + 1, .str _, _ => none
  | _ + 1, .arr _, _ => none

/-- Evaluator::eval_prefix; its bang arm sends TRUE to FALSE, FALSE and
NULL to TRUE, and every other object to FALSE. -/
def evalPre : Nat → String → Expression → Environment → Option (Object × Environment)
  | 0, _, _, _ => none
  | fuel + 1, operator, e, env =>
    match evalExpression fuel e env with
    | none => none
    | some (obj, env') =>
      if operator = "!" then
        match obj with
        | Object.bool b => some (Object.bool (!b), env')
        | Object.null => some (Object.bool Bool.true, env')
        | _ => some (Object.bool Bool.false, env')
      else if operator = "-" then
        match obj with
        | Object.int v => some (Object.int (-v), env')
        | _ => none
      else none

/-- Evaluator::eval_infix: Int x Int arithmetic and comparisons, Bool x
Bool equality; anything else panics. -/
def evalBin : Nat → String → Expression → Expression → Environment →
    Option (Object × Environment)
  | 0, _, _, _, _ => none
  | fuel + 1, operator, l, r, env =>
    match evalExpression fuel l env with
    | none => none
    | some (left, env1) =>
      match evalExpression fuel r env1 with
      | none => none
      | some (right, env2) =>
        match left, right with
        | Object.int a, Object.int b =>
          if operator = "+" then some (Object.int (a + b), env2)
          else if operator = "-" then some (Object.int (a - b), env2)
          else if operator = "*" then some (Object.int (a * b), env2)
          else if operator = "/" then
            if b = 0 then none else some (Object.int (Int.tdiv a b), env2)
          else if operator = "<" then some (Object.bool (decide (a < b)), env2)
          else if operator = ">" then some (Object.bool (decide (a > b)), env2)
          else if operator = "==" then some (Object.bool (a == b), env2)
          else if operator = "!=" then some (Object.bool (a != b), env2)
          else none
        | Object.bool a, Object.bool b =>
          if operator = "==" then some (Object.bool (a == b), env2)
          else if operator = "!=" then some (Object.bool (a != b), env2)
          else none
        | _, _ => none

/-- Evaluator::eval_if: NULL and FALSE select the alternative, anything
else the consequence. -/
def evalIf : Nat → Expression → Statement → Statement → Environment →
    Option (Object × Environment)
  | 0, _, _, _, _ => none
  | fuel + 1, condition, consequence, alternative, env =>
    match evalExpression fuel condition env with
    | none => none
    | some (Object.null, env') => evalBlock fuel alternative env'
    | some (Object.bool Bool.false, env') => evalBlock fuel alternative env'
    | some (_, env') => evalBlock fuel consequence env'

/-- Evaluator::eval_call: the callee must be a Function object; bind the
zipped parameter/argument pairs (arguments evaluated in the caller's
environment) into a fresh environment extending the captured one, run
the body, unwrap an Object::Return result. -/
def evalCall : Nat → Expression → List Expression → Environment →
    Option (Object × Environment)
  | 0, _, _, _ => none
  | fuel + 1, f, args, env =>
    match evalExpression fuel f env with
    | none => none
    | some (Object.function parameters body fnEnv, env1) =>
      match evalBindArgs fuel (parameters.zip args) env1 (Environment.mk [] (some fnEnv)) with
      | none => none
      | some (env2, extended) =>
        match evalBlock fuel body extended with
        | none => none
        | some (Object.ret o, _) => some (o, env2)
        | some (r, _) => some (r, env2)
    | some (_, _) => none

/-- The parameter-binding loop of eval_call. -/
def evalBindArgs : Nat → List (Expression × Expression) → Environment → Environment →
    Option (Environment × Environment)
  | 0, _, _, _ => none
  | _ + 1, [], env, extended => some (env, extended)
  | fuel + 1, (Expression.ident name, aug) :: rest, env, extended =>
    match evalExpression fuel aug env with
    | none => none
    | some (v, env') => evalBindArgs fuel rest env' (envSet extended name v)
  | _ + 1, (_, _) :: _, _, _ => none

end

/-- Evaluator::next on one statement: evaluate it and unwrap an
Object::Return into the value the REPL prints. -/
def evalNext (fuel : Nat) (stmt : Statement) (env : Environment) :
    Option (Object × Environment) :=
  match evalStatement fuel stmt env with
  | none => none
  | some (Object.ret o, env') => some (o, env')
  | some (r, env') => some (r, env')

/-! ## Derived definitions used by the verification statements. -/

/-- SymbolTable::new. -/
def SymbolTable.new (outer : Option SymbolTable) : SymbolTable := .mk outer [] 0

/-- A sequence of define calls on one table, keeping only the table. -/
def defineAll (names : List String) (t : SymbolTable) : SymbolTable :=
  names.foldl (fun t n => (t.define n).2) t

/-- Every stored symbol index is below the definition counter. -/
def boundedIdxB (t : SymbolTable) : Bool :=
  t.map.all (fun p => decide (p.2.index < t.numDefinitions))

/-- Every stored symbol has Global scope. -/
def allGlobalB (t : SymbolTable) : Bool :=
  t.map.all (fun p => match p.2.scope with
    | Scope.global => Bool.true
    | Scope.localS => Bool.false)

/-- A root table: no outer chain and only Global symbols. -/
def rootGlobalB (t : SymbolTable) : Bool :=
  (match t.outer with | none => Bool.true | some _ => Bool.false) && allGlobalB t

/-- The state effects every compiler step has: instructions grow by
appending, the saved-scope stack is untouched, the symbol table keeps
its outer pointer, and at the top level (no outer table) an all-Global
map stays all-Global. -/
def CompileEffects (st st1 : CompilerState) : Prop :=
  (∃ d, st1.instructions = st.instructions ++ d) ∧
  st1.scopes = st.scopes ∧
  st1.symbolTable.outer = st.symbolTable.outer ∧
  (st.symbolTable.outer = none → allGlobalB st.symbolTable = Bool.true →
    allGlobalB st1.symbolTable = Bool.true)

/-- Instructions that touch neither the frame stack nor the instruction
vector when they succeed.  Only Call installs new instructions and
pushes a frame; ReturnValue and Return are fatal on an empty frame
stack, hence harmless there. -/
def nfCode : Code → Bool
  | Code.callOp _ => Bool.false
  | _ => Bool.true

mutual

/-- Expressions containing no Function literal and no Call. -/
def nfExpr : Expression → Bool
  | .ident _ => Bool.true
  | .int _ => Bool.true
  | .str _ => Bool.true
  | .bool _ => Bool.true
  | .arr es => nfExprs es
  | .pre _ e => nfExpr e
  | .bin _ l r => nfExpr l && nfExpr r
  | .cond c k a => nfExpr c && nfStmt k && nfStmt a
  | .func _ _ => Bool.false
  | .call _ _ => Bool.false

def nfExprs : List Expression → Bool
  | [] => Bool.true
  | e :: rest => nfExpr e && nfExprs rest

def nfStmt : Statement → Bool
  | .letS i e => nfExpr i && nfExpr e
  | .ret e => nfExpr e
  | .expr e => nfExpr e
  | .block ss => nfStmts ss

def nfStmts : List Statement → Bool
  | [] => Bool.true
  | s :: rest => nfStmt s && nfStmts rest

end

/-- Straight-line execution of one instruction chunk: the VM loop
restricted to a fixed instruction window, used to factor runs of
call-free code.  The skip counter is threaded exactly as in the loop;
the state's own instruction field is left alone (call-free instructions
never read it). -/
def runChunk : List Code → VMState → Option VMState
  | [], s => some s
  | code :: rest, s =>
    if s.jump = 0 then
      match execute s code with
      | none => none
      | some s' => runChunk rest s'
    else runChunk rest { s with jump := s.jump - 1 }

/-- Divergence of a VM run: every fuel bound is exhausted. -/
def vmDiverges (s : VMState) : Prop := ∀ n, runFuel n s = RunOutcome.outOfFuel

/-- All instructions of a chunk are call-free. -/
def ChunkNF (d : List Code) : Prop := ∀ c ∈ d, nfCode c = Bool.true

/-- Bounded chunk behaviour: run from a frame-free, non-skipping state,
a chunk either faults or ends frame-free and non-skipping having grown
the value stack by at most n. -/
def EChunk (d : List Code) (n : Nat) : Prop :=
  ∀ s : VMState, s.frames = [] → s.jump = 0 →
    runChunk d s = none ∨
    ∃ t, runChunk d s = some t ∧ t.frames = [] ∧ t.jump = 0 ∧
      t.stack.length ≤ s.stack.length + n

/-- One instruction that, when it succeeds, pops exactly one net value
and touches neither frames nor the skip counter. -/
def DecOp (c : Code) : Prop := ∀ s t : VMState, execute s c = some t →
  t.frames = s.frames ∧ t.jump = s.jump ∧ t.stack.length + 1 = s.stack.length

/-- One instruction that, when it succeeds, grows the stack by at most n
and touches neither frames nor the skip counter. -/
def ExecOk (c : Code) (n : Nat) : Prop := ∀ s t : VMState, execute s c = some t →
  t.frames = s.frames ∧ t.jump = s.jump ∧ t.stack.length ≤ s.stack.length + n

/-- One vm-mode REPL line of main.rs: compile the parsed statements with
the carried symbol table, run a fresh VM on the carried globals, and
print the first component of VM::run's tuple (the popped stack top) —
not last_popped. -/
def replVmLine (stmts : List Statement) (symtab : SymbolTable) (globals : Globals)
    (fuel : Nat) : Option (Object × SymbolTable × Globals) :=
  match compilerRun stmts symtab with
  | none => none
  | some (code, symtab') =>
    match runFuel fuel (vmNew code globals) with
    | .ok s => some ((vmFinish s).1, symtab', (vmFinish s).2.2)
    | _ => none

/-- Environment::new. -/
def envNew : Environment := .mk [] none

/-! Concrete programs used by counterexamples, code-bug demonstrations
and witnesses, with the instruction vectors the compiler emits for
them. -/

/-- The statement 1 + 2; -/
def stmtAddTwo : Statement := .expr (.bin "+" (.int "1") (.int "2"))

def progAddTwo : List Statement := [stmtAddTwo]

def codeAddTwo : List Code :=
  [Code.constant (Object.int 1), Code.constant (Object.int 2), Code.add, Code.pop]

/-- The statement !5; -/
def stmtBangFive : Statement := .expr (.pre "!" (.int "5"))

/-- if (true) { 1 } else { 2 }; -/
def progIfElse : List Statement :=
  [.expr (.cond (.bool "true") (.block [.expr (.int "1")]) (.block [.expr (.int "2")]))]

def codeIfElse : List Code :=
  [Code.true, Code.jumpNotTruthy 2, Code.constant (Object.int 1),
   Code.jump 1, Code.constant (Object.int 2), Code.pop]

/-- fn(a) { a; }(1); -/
def progOneArg : List Statement :=
  [.expr (.call (.func [.ident "a"] (.block [.expr (.ident "a")])) [.int "1"])]

def codeOneArg : List Code :=
  [Code.constant (Object.compiledFunction [Code.getLocal 0, Code.returnValue] 1 1),
   Code.constant (Object.int 1), Code.callOp 1, Code.pop]

/-- fn(a) { fn(b) { b; }(2); a; }(1); — a nested call after which the
outer function reads its own local. -/
def progNested : List Statement :=
  [.expr (.call
    (.func [.ident "a"] (.block
      [.expr (.call (.func [.ident "b"] (.block [.expr (.ident "b")])) [.int "2"]),
       .expr (.ident "a")]))
    [.int "1"])]

def codeNested : List Code :=
  [Code.constant (Object.compiledFunction
    [Code.constant (Object.compiledFunction [Code.getLocal 0, Code.returnValue] 1 1),
     Code.constant (Object.int 2), Code.callOp 1, Code.pop,
     Code.getLocal 0, Code.returnValue] 1 1),
   Code.constant (Object.int 1), Code.callOp 1, Code.pop]

/-- let f = fn(g) { g(g); }; f(f); — self-application without any
recursive name reference. -/
def progOmega : List Statement :=
  [.letS (.ident "f") (.func [.ident "g"] (.block [.expr (.call (.ident "g") [.ident "g"])])),
   .expr (.call (.ident "f") [.ident "f"])]

def omegaBody : List Code :=
  [Code.getLocal 0, Code.getLocal 0, Code.callOp 1, Code.returnValue]

def omegaF : Object := Object.compiledFunction omegaBody 1 1

def codeOmega : List Code :=
  [Code.constant omegaF, Code.setGlobal 0,
   Code.getGlobal 0, Code.getGlobal 0, Code.callOp 1, Code.pop]

def omegaTable : SymbolTable :=
  .mk none [("f", ⟨"f", Scope.global, 0⟩)] 1

/-- let f = fn() { f(); }; — the initializer mentions the name being
bound. -/
def progSelfRec : List Statement :=
  [.letS (.ident "f") (.func [] (.block [.expr (.call (.ident "f") [])]))]

/-- let f = 1; let f = fn() { f(); }; — the same initializer, with f
already bound in the enclosing (root) scope. -/
def progSelfRecBound : List Statement :=
  .letS (.ident "f") (.int "1") :: progSelfRec

/-! ## Helper lemmas. -/

theorem vpop_concat {α : Type} (l : List α) (x : α) : vpop (l ++ [x]) = some (x, l) := by
  simp [vpop]

theorem defineAll_numDefinitions (names : List String) (t : SymbolTable) :
    (defineAll names t).numDefinitions = t.numDefinitions + names.length := by
  induction names generalizing t with
  | nil => simp [defineAll]
  | cons n rest ih =>
    cases t with
    | mk o m nd =>
      have h := ih (SymbolTable.define (.mk o m nd) n).2
      simp [defineAll, SymbolTable.define, SymbolTable.numDefinitions] at h ⊢
      omega

theorem allIdxLt_mono (m : List (String × MSym)) (a b : Nat) (hab : a ≤ b)
    (h : m.all (fun p => decide (p.2.index < a)) = Bool.true) :
    m.all (fun p => decide (p.2.index < b)) = Bool.true := by
  simp [List.all_eq_true] at h ⊢
  intro x y hmem
  have := h x y hmem
  omega

theorem define_bounded (t : SymbolTable) (n : String) (h : boundedIdxB t = Bool.true) :
    boundedIdxB (t.define n).2 = Bool.true := by
  rcases t with ⟨o, m, nd⟩
  simp only [boundedIdxB, SymbolTable.define, SymbolTable.map, SymbolTable.numDefinitions,
    List.all_cons, Bool.and_eq_true] at h ⊢
  refine ⟨by simp, ?_⟩
  exact allIdxLt_mono m nd (nd + 1) (by omega) h

theorem defineAll_bounded (names : List String) (t : SymbolTable)
    (h : boundedIdxB t = Bool.true) : boundedIdxB (defineAll names t) = Bool.true := by
  induction names generalizing t with
  | nil => simpa [defineAll] using h
  | cons n rest ih =>
    have hstep : defineAll (n :: rest) t = defineAll rest (t.define n).2 := by simp [defineAll]
    rw [hstep]
    exact ih _ (define_bounded t n h)

/-- Unfolding equation of SymbolTable::resolve for an arbitrary outer
field (the auto-generated equations are split on the outer option). -/
theorem resolve_mk (outer : Option SymbolTable) (map : List (String × MSym)) (nd : Nat)
    (name : String) :
    SymbolTable.resolve (.mk outer map nd) name =
      (match alookup map name with
       | some sym => some sym
       | none =>
         match outer with
         | some o => o.resolve name
         | none => none) := by
  cases outer <;> cases halookup : alookup map name <;>
    simp [SymbolTable.resolve, halookup]

/-! ## Claim theorems. -/

/-- C6: in a single symbol table, define assigns index = num_definitions
and then increments the counter, even on redefinition, so indices are
never reused; after any sequence of define calls on a fresh table,
num_definitions equals the number of indices allocated and every stored
symbol index is below it; resolve finds the current table's binding
first (innermost-first shadowing) and only on a miss recurses into the
outer table. -/
theorem c6_define_resolve_invariant :
    (∀ (t : SymbolTable) (name : String),
      (t.define name).1.index = t.numDefinitions ∧
      (t.define name).2.numDefinitions = t.numDefinitions + 1 ∧
      alookup (t.define name).2.map name = some (t.define name).1) ∧
    (∀ (outer : Option SymbolTable) (names : List String),
      (defineAll names (SymbolTable.new outer)).numDefinitions = names.length ∧
      boundedIdxB (defineAll names (SymbolTable.new outer)) = Bool.true) ∧
    (∀ (t : SymbolTable) (name : String),
      ((t.define name).2).resolve name = some (t.define name).1) ∧
    (∀ (outer : Option SymbolTable) (map : List (String × MSym)) (nd : Nat) (name : String),
      alookup map name = none →
      SymbolTable.resolve (.mk outer map nd) name =
        (match outer with | some o => o.resolve name | none => none)) := by
  refine ⟨?_, ?_, ?_, ?_⟩
  · intro t name
    rcases t with ⟨o, m, nd⟩
    refine ⟨rfl, rfl, ?_⟩
    simp [SymbolTable.define, SymbolTable.map, alookup]
  · intro outer names
    refine ⟨?_, ?_⟩
    · have h := defineAll_numDefinitions names (SymbolTable.new outer)
      simpa [SymbolTable.new, SymbolTable.numDefinitions] using h
    · exact defineAll_bounded names _ (by simp [boundedIdxB, SymbolTable.new, SymbolTable.map])
  · intro t name
    rcases t with ⟨o, m, nd⟩
    simp [SymbolTable.define, resolve_mk, alookup]
  · intro outer map nd name h
    rw [resolve_mk, h]

theorem c6_witness :
    SymbolTable.resolve (SymbolTable.mk none [] 0) "x" = none := by
  have h := c6_define_resolve_invariant.2.2.2 none [] 0 "x" (by simp [alookup])
  simpa using h

/-- C10: the name bound by a let statement is not in scope in its own
initializer: compiling let f = fn() { f(); }; from an empty root table
is a compile-time unresolved-identifier failure, while the same let
compiles once an enclosing scope already binds f. -/
theorem c10_let_initializer_scope :
    compilerRun progSelfRec (SymbolTable.new none) = none ∧
    (compilerRun progSelfRecBound (SymbolTable.new none)).isSome = Bool.true := by
  constructor
  · simp [progSelfRec, compilerRun, compileStatements, compileStatement,
      compileExpression, compileExpressions, SymbolTable.resolve, SymbolTable.define,
      SymbolTable.new, alookup, enterScope, defineParams, finishFunction, leaveScope, emit,
      parseI32, parseDigits, digitVal, stripPop, patchCons, patchAlt, vswapRemove]
  · simp [progSelfRecBound, progSelfRec, compilerRun, compileStatements, compileStatement,
      compileExpression, compileExpressions, SymbolTable.resolve, SymbolTable.define,
      SymbolTable.new, alookup, enterScope, defineParams, finishFunction, leaveScope, emit,
      parseI32, parseDigits, digitVal, stripPop, patchCons, patchAlt, vswapRemove]

/-- C8 (code bug): on the REPL line 1 + 2; the evaluator prints Int(3),
but the vm-mode REPL prints Null: main.rs prints the first component of
VM::run's tuple (the popped stack top, Null after a completed Pop
statement) although the VM has the statement value in last_popped; and
on !5; the evaluator prints false while the VM run is fatal (Bang on an
Int panics). -/
theorem c8_repl_disagreement :
    evalNext 10 stmtAddTwo envNew = some (Object.int 3, envNew) ∧
    replVmLine progAddTwo (SymbolTable.new none) [] 10 =
      some (Object.null, SymbolTable.new none, []) ∧
    runFuel 10 (vmNew codeAddTwo []) =
      RunOutcome.ok ⟨[], [], [], 0, some (Object.int 3), 0, []⟩ ∧
    Object.null ≠ Object.int 3 ∧
    evalNext 10 stmtBangFive envNew = some (Object.bool Bool.false, envNew) ∧
    replVmLine [stmtBangFive] (SymbolTable.new none) [] 10 = none := by
  have hc : compilerRun progAddTwo (SymbolTable.new none) =
      some (codeAddTwo, SymbolTable.new none) := by
    simp [progAddTwo, stmtAddTwo, codeAddTwo, compilerRun, compileStatements, compileStatement,
      compileExpression, compileExpressions, SymbolTable.new, emit, parseI32, parseDigits,
      digitVal]
  have hb : compilerRun [stmtBangFive] (SymbolTable.new none) =
      some ([Code.constant (Object.int 5), Code.bang, Code.pop], SymbolTable.new none) := by
    simp [stmtBangFive, compilerRun, compileStatements, compileStatement,
      compileExpression, SymbolTable.new, emit, parseI32, parseDigits, digitVal]
  refine ⟨?_, ?_, ?_, ?_, ?_, ?_⟩
  · simp [stmtAddTwo, evalNext, evalStatement, evalExpression, evalBin, parseI32, parseDigits,
      digitVal, envNew]
  · rw [replVmLine, hc]
    rfl
  · rfl
  · intro h
    exact Object.noConfusion h
  · simp [stmtBangFive, evalNext, evalStatement, evalExpression, evalPre, parseI32, parseDigits,
      digitVal, envNew]
  · rw [replVmLine, hb]
    rfl

/-- C1 (code bug): pop_frame restores the caller's instructions but
never restores self.base, so after an inner call returns, the still-set
callee base makes the caller's GetLocal read out of the caller's frame:
on fn(a) { fn(b) { b; }(2); a; }(1); the state after the inner return
has base 2 although the restored caller frame's base is 0, and the run
is fatal (GetLocal(0) reads index 2 of a 2-element stack) instead of
producing Int(1). -/
theorem c1_frame_base_not_restored :
    compilerRun progNested (SymbolTable.new none) = some (codeNested, SymbolTable.new none) ∧
    (iter 9 (vmNew codeNested [])).map
      (fun s => (s.base, s.frames.map Frame.base, s.stack.length)) = some (2, [0], 2) ∧
    runFuel 20 (vmNew codeNested []) = RunOutcome.fatal ∧
    (∀ s : VMState, (popFrame s).map VMState.base = (popFrame s).map (fun _ => s.base)) := by
  refine ⟨?_, rfl, rfl, ?_⟩
  · simp [progNested, codeNested, compilerRun, compileStatements, compileStatement,
      compileExpression, compileExpressions, SymbolTable.resolve, SymbolTable.define,
      SymbolTable.new, alookup, enterScope, defineParams, finishFunction, leaveScope, emit,
      parseI32, parseDigits, digitVal]
  · intro s
    cases hs : s.frames <;> simp [popFrame, hs]

/-- C2 (counterexample): executing Call(1) on the compiled
fn(a) { a; }(1); extends the stack by num_locals = 1 Nulls on top of the
argument, reaching length 2 = frame_base + num_params + num_locals,
not frame_base + num_locals = 1 as claimed. -/
theorem c2_counterexample :
    compilerRun progOneArg (SymbolTable.new none) = some (codeOneArg, SymbolTable.new none) ∧
    (iter 3 (vmNew codeOneArg [])).map
      (fun s => (s.stack, s.base, s.frames.map Frame.base)) =
      some ([Object.int 1, Object.null], 0, [0]) ∧
    (2 : Nat) ≠ 0 + 1 := by
  refine ⟨?_, rfl, by decide⟩
  simp [progOneArg, codeOneArg, compilerRun, compileStatements, compileStatement,
    compileExpression, compileExpressions, SymbolTable.resolve, SymbolTable.define,
    SymbolTable.new, alookup, enterScope, defineParams, finishFunction, leaveScope, emit,
    parseI32, parseDigits, digitVal]

/-- C4 (counterexample): for if (true) { 1 } else { 2 }; the emitted
vector is True, JumpNotTruthy(2), Constant 1, Jump(1), Constant 2, Pop:
offset_c = 2 and offset_a = 1, the stripped branches have one
instruction each and there is no Null pad, and 2 + 2 + 1 is not
1 + 1 + 0. -/
theorem c4_counterexample :
    compilerRun progIfElse (SymbolTable.new none) = some (codeIfElse, SymbolTable.new none) ∧
    (2 + 2 + 1 : Nat) ≠ 1 + 1 + 0 := by
  refine ⟨?_, by decide⟩
  simp [progIfElse, codeIfElse, compilerRun, compileStatements, compileStatement,
    compileExpression, compileExpressions, SymbolTable.new, emit, parseI32, parseDigits,
    digitVal, stripPop, patchCons, patchAlt, vswapRemove]

theorem vpop_two {α : Type} (pre : List α) (a b : α) :
    vpop (pre ++ [a, b]) = some (b, pre ++ [a]) := by
  have h : pre ++ [a, b] = (pre ++ [a]) ++ [b] := by simp
  rw [h, vpop_concat]

theorem get_append_mid {α : Type} (pre : List α) (x : α) (rest : List α) :
    (pre ++ x :: rest).get? pre.length = some x := by
  rw [List.get?_eq_getElem?, List.getElem?_append_right (Nat.le_refl _)]
  simp

theorem eraseIdx_append_mid {α : Type} (pre : List α) (x : α) (rest : List α) :
    (pre ++ x :: rest).eraseIdx pre.length = pre ++ rest := by
  induction pre with
  | nil => rfl
  | cons a p ih => simpa [List.eraseIdx_cons_succ] using ih

/-- Full characterisation of a successful execute_call: the function
value num_args below the top is removed, a frame saving the caller's
remaining instructions and the new base is pushed, and num_locals Nulls
are appended. -/
theorem executeCall_spec (s : VMState) (pre args : List Object) (body : List Code)
    (L n : Nat) (h : s.stack = pre ++ Object.compiledFunction body L n :: args)
    (hn : args.length = n) :
    executeCall n s = some
      { frames := ⟨s.instructions, pre.length⟩ :: s.frames,
        instructions := body,
        stack := (pre ++ args) ++ List.replicate L Object.null,
        base := pre.length,
        lastPopped := s.lastPopped,
        jump := s.jump,
        globals := s.globals } := by
  obtain ⟨fr, ins, stk, b, lp, j, g⟩ := s
  simp only at h
  subst h
  have hlen : (pre ++ Object.compiledFunction body L n :: args).length = pre.length + n + 1 := by
    simp [hn]
    omega
  have hidx : pre.length + n + 1 - n - 1 = pre.length := by omega
  have hbase : (pre ++ args).length - n = pre.length := by simp [hn]
  simp only [executeCall, hlen, hidx,
    if_neg (show ¬ pre.length + n + 1 < n + 1 by omega),
    get_append_mid, eraseIdx_append_mid, if_pos rfl, pushFrame, hbase]
  simp

/-- Full characterisation of a successful execute_return_value. -/
theorem executeReturnValue_spec (s : VMState) (stk1 : List Object) (v : Object)
    (frInstrs : List Code) (frBase : Nat) (rest : List Frame)
    (hf : s.frames = ⟨frInstrs, frBase⟩ :: rest) (hs : s.stack = stk1 ++ [v]) :
    executeReturnValue s = some
      { frames := rest,
        instructions := frInstrs,
        stack := stk1.take frBase ++ [v],
        base := s.base,
        lastPopped := s.lastPopped,
        jump := s.jump,
        globals := s.globals } := by
  obtain ⟨fr, ins, stk, b, lp, j, g⟩ := s
  simp only at hf hs
  subst hf hs
  simp [executeReturnValue, vpop_concat, popFrame, vpush]

/-- Full characterisation of a successful execute_return. -/
theorem executeReturn_spec (s : VMState) (frInstrs : List Code) (frBase : Nat)
    (rest : List Frame) (hf : s.frames = ⟨frInstrs, frBase⟩ :: rest) :
    executeReturn s = some
      { frames := rest,
        instructions := frInstrs,
        stack := s.stack.take frBase ++ [Object.null],
        base := s.base,
        lastPopped := s.lastPopped,
        jump := s.jump,
        globals := s.globals } := by
  obtain ⟨fr, ins, stk, b, lp, j, g⟩ := s
  simp only at hf
  subst hf
  simp [executeReturn, popFrame, vpush]

/-- C9: with an Array beneath an Int on top of the stack, Index always
succeeds, pushing the element at the cast index or Null when the cast
index is out of range — in particular every negative i32 index, whose
cast lands at least 2^64 - 2^31, is out of range for any array of
machine-representable length and yields Null; Index is fatal only when
the popped index is not an Int or the value beneath it is not an
Array. -/
theorem c9_index_never_fatal_on_int_array :
    (∀ (s : VMState) (pre : List Object) (elems : List Object) (v : Int),
      s.stack = pre ++ [Object.arr elems, Object.int v] →
      executeIndexOp s =
        some { s with stack := pre ++ [(elems.get? (usizeOfI32 v)).getD Object.null] }) ∧
    (∀ (v : Int) (elems : List Object),
      v < 0 → -(2 ^ 31) ≤ v → elems.length ≤ 2 ^ 32 →
      elems.get? (usizeOfI32 v) = none) ∧
    (∀ (s : VMState) (pre : List Object) (x y : Object),
      s.stack = pre ++ [y, x] →
      executeIndexOp s = none →
      (∀ v, x ≠ Object.int v) ∨ (∀ es, y ≠ Object.arr es)) := by
  refine ⟨?_, ?_, ?_⟩
  · intro s pre elems v h
    cases hg : elems[usizeOfI32 v]? <;>
      simp [executeIndexOp, h, vpop_two, vpop_concat, hg, vpush, List.get?_eq_getElem?]
  · intro v elems h1 h2 h3
    have hmod : v % (2 : Int) ^ 64 = v + 2 ^ 64 := by omega
    have h4 : usizeOfI32 v = (v + 2 ^ 64).toNat := by rw [usizeOfI32, hmod]
    rw [h4, List.get?_eq_getElem?, List.getElem?_eq_none]
    omega
  · intro s pre x y h hfail
    cases x with
    | int v =>
      right
      intro es hy
      subst hy
      cases hg : es[usizeOfI32 v]? <;>
        simp [executeIndexOp, h, vpop_two, vpop_concat, hg, List.get?_eq_getElem?] at hfail
    | _ =>
      left
      intro v hv
      exact Object.noConfusion hv

theorem c9_witness :
    executeIndexOp ⟨[], [], [Object.arr [Object.int 7], Object.int (-1)], 0, none, 0, []⟩ =
      some ⟨[], [], [Object.null], 0, none, 0, []⟩ := by
  have h := c9_index_never_fatal_on_int_array.1
    ⟨[], [], [Object.arr [Object.int 7], Object.int (-1)], 0, none, 0, []⟩
    [] [Object.int 7] (-1) rfl
  have h2 := c9_index_never_fatal_on_int_array.2.1 (-1) [Object.int 7]
    (by decide) (by decide) (by decide)
  rw [h]
  simp [← List.get?_eq_getElem?, h2]

theorem c2_amended_call_padding :
    ∀ (s : VMState) (pre args : List Object) (body : List Code) (L n : Nat),
      s.stack = pre ++ Object.compiledFunction body L n :: args →
      args.length = n →
      executeCall n s = some
        { frames := ⟨s.instructions, pre.length⟩ :: s.frames,
          instructions := body,
          stack := (pre ++ args) ++ List.replicate L Object.null,
          base := pre.length,
          lastPopped := s.lastPopped,
          jump := s.jump,
          globals := s.globals } ∧
      ((pre ++ args) ++ List.replicate L Object.null).length = pre.length + n + L := by
  intro s pre args body L n h hn
  refine ⟨executeCall_spec s pre args body L n h hn, ?_⟩
  simp [hn]
  omega

theorem c2_amended_witness :
    executeCall 1 ⟨[], [Code.pop],
        [Object.compiledFunction [Code.getLocal 0, Code.returnValue] 1 1, Object.int 1],
        0, none, 0, []⟩ = some
      ⟨[⟨[Code.pop], 0⟩], [Code.getLocal 0, Code.returnValue],
        [Object.int 1, Object.null], 0, none, 0, []⟩ ∧
    ([Object.int 1, Object.null] : List Object).length = 0 + 1 + 1 := by
  have h := c2_amended_call_padding
    ⟨[], [Code.pop],
      [Object.compiledFunction [Code.getLocal 0, Code.returnValue] 1 1, Object.int 1],
      0, none, 0, []⟩
    [] [Object.int 1] [Code.getLocal 0, Code.returnValue] 1 1 rfl rfl
  exact ⟨h.1, rfl⟩

theorem c5_amended_call_return_stack :
    (∀ (s : VMState) (pre args : List Object) (body : List Code) (L n : Nat),
      s.stack = pre ++ Object.compiledFunction body L n :: args →
      args.length = n →
      executeCall n s = some
        { frames := ⟨s.instructions, pre.length⟩ :: s.frames,
          instructions := body,
          stack := (pre ++ args) ++ List.replicate L Object.null,
          base := pre.length,
          lastPopped := s.lastPopped,
          jump := s.jump,
          globals := s.globals }) ∧
    (∀ (s : VMState) (fr : Frame) (rest : List Frame),
      s.frames = fr :: rest → fr.base + 1 ≤ s.stack.length →
      ∃ s', executeReturnValue s = some s' ∧ s'.frames = rest ∧
        s'.instructions = fr.instructions ∧ s'.stack.length = fr.base + 1) ∧
    (∀ (s : VMState) (fr : Frame) (rest : List Frame),
      s.frames = fr :: rest → fr.base ≤ s.stack.length →
      ∃ s', executeReturn s = some s' ∧ s'.frames = rest ∧
        s'.instructions = fr.instructions ∧ s'.stack.length = fr.base + 1) := by
  refine ⟨fun s pre args body L n h hn => executeCall_spec s pre args body L n h hn, ?_, ?_⟩
  · intro s fr rest hf hlen
    obtain ⟨fi, fb⟩ := fr
    rcases List.eq_nil_or_concat s.stack with hnil | ⟨stk1, v, hsv⟩
    all_goals try rw [List.concat_eq_append] at hsv
    · rw [hnil] at hlen
      simp at hlen
    · refine ⟨_, executeReturnValue_spec s stk1 v fi fb rest hf hsv, rfl, rfl, ?_⟩
      have : fb ≤ stk1.length := by
        rw [hsv] at hlen
        simp at hlen
        omega
      simp [List.length_take]
      omega
  · intro s fr rest hf hlen
    obtain ⟨fi, fb⟩ := fr
    refine ⟨_, executeReturn_spec s fi fb rest hf, rfl, rfl, ?_⟩
    have hlen2 : fb ≤ s.stack.length := hlen
    simp [List.length_take]
    omega

theorem c5_amended_witness :
    ∃ s', executeReturnValue ⟨[⟨[], 0⟩], [], [Object.int 9], 0, none, 0, []⟩ = some s' ∧
      s'.frames = [] ∧ s'.instructions = [] ∧ s'.stack.length = 0 + 1 := by
  exact c5_amended_call_return_stack.2.1
    ⟨[⟨[], 0⟩], [], [Object.int 9], 0, none, 0, []⟩ ⟨[], 0⟩ [] rfl (by decide)

theorem runFuel_zero (s : VMState) : runFuel 0 s = RunOutcome.outOfFuel := rfl

theorem runFuel_succ (n : Nat) (s : VMState) :
    runFuel (n + 1) s =
      (match stepOnce s with
       | .halt t => RunOutcome.ok t
       | .fatal => RunOutcome.fatal
       | .next s' => runFuel n s') := rfl

theorem runFuel_iter (k : Nat) :
    ∀ (m : Nat) (s s' : VMState), iter k s = some s' →
    runFuel (k + m) s = runFuel m s' := by
  induction k with
  | zero =>
    intro m s s' h
    simp [iter] at h
    subst h
    rw [Nat.zero_add]
  | succ k ih =>
    intro m s s' h
    rw [iter] at h
    cases hstep : stepOnce s with
    | next s1 =>
      rw [hstep] at h
      have harith : k + 1 + m = (k + m) + 1 := by omega
      rw [harith, runFuel_succ, hstep]
      exact ih m s1 s' h
    | halt t => rw [hstep] at h; exact absurd h (by simp)
    | fatal => rw [hstep] at h; exact absurd h (by simp)

theorem omega_loop (n : Nat) :
    ∀ (stack : List Object) (base : Nat) (frames : List Frame) (lp : Option Object)
      (g : Globals),
      stack.length = base + 2 → stack.get? base = some omegaF →
      runFuel n ⟨frames, omegaBody, stack, base, lp, 0, g⟩ = RunOutcome.outOfFuel := by
  induction n using Nat.strong_induction_on with
  | _ n ih =>
    intro stack base frames lp g hlen hget
    rw [List.get?_eq_getElem?] at hget
    have hget1 : (stack ++ [omegaF])[base]? = some omegaF := by
      rw [List.getElem?_append_left (by omega)]
      exact hget
    have h1 : stepOnce ⟨frames, omegaBody, stack, base, lp, 0, g⟩ =
        .next ⟨frames, [Code.getLocal 0, Code.callOp 1, Code.returnValue],
          stack ++ [omegaF], base, lp, 0, g⟩ := by
      simp [stepOnce, omegaBody, execute, hget, vpush]
    have h2 : stepOnce ⟨frames, [Code.getLocal 0, Code.callOp 1, Code.returnValue],
          stack ++ [omegaF], base, lp, 0, g⟩ =
        .next ⟨frames, [Code.callOp 1, Code.returnValue],
          stack ++ [omegaF, omegaF], base, lp, 0, g⟩ := by
      simp [stepOnce, execute, hget1, vpush]
    have hcall := executeCall_spec
      ⟨frames, [Code.returnValue], stack ++ [omegaF, omegaF], base, lp, 0, g⟩
      stack [omegaF] omegaBody 1 1 (by simp [omegaF]) rfl
    have h3 : stepOnce ⟨frames, [Code.callOp 1, Code.returnValue],
          stack ++ [omegaF, omegaF], base, lp, 0, g⟩ =
        .next ⟨⟨[Code.returnValue], stack.length⟩ :: frames, omegaBody,
          (stack ++ [omegaF]) ++ [Object.null], stack.length, lp, 0, g⟩ := by
      simp only [stepOnce, execute]
      simp only at hcall
      simp [hcall]
    rcases n with _ | n
    · rfl
    rcases n with _ | n
    · simp only [runFuel_succ, h1]
      rfl
    rcases n with _ | m
    · simp only [runFuel_succ, h1, h2]
      rfl
    simp only [runFuel_succ, h1, h2, h3]
    have hlen2 : ((stack ++ [omegaF]) ++ [Object.null]).length = stack.length + 2 := by simp
    have hget2 : ((stack ++ [omegaF]) ++ [Object.null]).get? stack.length = some omegaF := by
      rw [show ((stack ++ [omegaF]) ++ [Object.null] : List Object) =
        stack ++ omegaF :: [Object.null] by simp]
      exact get_append_mid stack omegaF [Object.null]
    exact ih m (by omega) _ stack.length _ lp g hlen2 hget2

theorem c5_counterexample :

    compilerRun progOmega (SymbolTable.new none) = some (codeOmega, omegaTable) ∧
    vmDiverges (vmNew codeOmega []) := by
  constructor
  · simp [progOmega, codeOmega, omegaTable, omegaF, omegaBody, compilerRun, compileStatements,
      compileStatement, compileExpression, compileExpressions, SymbolTable.resolve,
      SymbolTable.define, SymbolTable.new, alookup, enterScope, defineParams, finishFunction,
      leaveScope, emit, parseI32, parseDigits, digitVal]
  · intro n
    by_cases h5 : n < 5
    · interval_cases n <;> rfl
    · obtain ⟨m, rfl⟩ : ∃ m, n = 5 + m := ⟨n - 5, by omega⟩
      have hiter : iter 5 (vmNew codeOmega []) =
          some ⟨[⟨[Code.pop], 0⟩], omegaBody, [omegaF, Object.null], 0, none, 0,
            [(0, omegaF)]⟩ := rfl
      rw [runFuel_iter 5 m _ _ hiter]
      exact omega_loop m [omegaF, Object.null] 0 _ none _ rfl rfl

theorem vswapRemove_patch {α : Type} (A : List α) (x y : α) (B : List α) :
    vswapRemove (A ++ x :: (B ++ [y])) A.length = some (A ++ y :: B) := by
  have hassoc : A ++ x :: (B ++ [y]) = (A ++ x :: B) ++ [y] := by simp
  have hlast : (A ++ x :: (B ++ [y])).getLast? = some y := by
    rw [hassoc, List.getLast?_concat]
  have hlt : A.length < (A ++ x :: (B ++ [y])).length := by simp
  have hset : (A ++ x :: (B ++ [y])).set A.length y = A ++ y :: (B ++ [y]) := by
    rw [List.set_append_right _ _ (Nat.le_refl _)]
    simp
  rw [vswapRemove, hlast]
  simp only [hlt, if_pos]
  rw [hset]
  have : A ++ y :: (B ++ [y]) = (A ++ y :: B) ++ [y] := by simp
  rw [this, List.dropLast_concat]

theorem stripPop_spec (st st' : CompilerState) (h : stripPop st = some st') :
    (st.instructions.getLast? = some Code.pop ∧
      st' = { st with instructions := st.instructions.dropLast }) ∨
    ((∃ c, st.instructions.getLast? = some c ∧ c ≠ Code.pop) ∧ st' = st) := by
  rw [stripPop] at h
  cases hl : st.instructions.getLast? with
  | none => rw [hl] at h; exact absurd h (by simp)
  | some c =>
    rw [hl] at h
    cases c with
    | pop =>
      left
      refine ⟨rfl, ?_⟩
      simp at h
      exact h.symm
    | _ =>
      right
      refine ⟨⟨_, rfl, by simp⟩, ?_⟩
      simp at h
      exact h.symm

theorem patchCons_spec (P X : List Code) (st st' : CompilerState)
    (h : st.instructions = P ++ Code.jumpNotTruthy 9999 :: X)
    (hp : patchCons P.length st = some st') :
    ∃ consC, (X = consC ∨ X = consC ++ [Code.pop]) ∧
      st' = { st with instructions :=
        P ++ Code.jumpNotTruthy (consC.length + 1) :: consC } := by
  rw [patchCons] at hp
  cases hsp : stripPop st with
  | none => rw [hsp] at hp; exact absurd hp (by simp)
  | some st1 =>
    simp only [hsp] at hp
    have hstrip : st1.scopes = st.scopes ∧ st1.symbolTable = st.symbolTable ∧
        ∃ consC, (X = consC ∨ X = consC ++ [Code.pop]) ∧
          st1.instructions = P ++ Code.jumpNotTruthy 9999 :: consC := by
      rcases stripPop_spec st st1 hsp with ⟨hlast, hst1⟩ | ⟨⟨c, hlast, hc⟩, hst1⟩
      · rw [h, List.getLast?_append_cons] at hlast
        rcases List.eq_nil_or_concat X with rfl | ⟨X0, xl, hX⟩
        · simp at hlast
        · rw [List.concat_eq_append] at hX
          subst hX
          have : (Code.jumpNotTruthy 9999 :: (X0 ++ [xl])).getLast? = some xl := by
            rw [show Code.jumpNotTruthy 9999 :: (X0 ++ [xl]) =
              (Code.jumpNotTruthy 9999 :: X0) ++ [xl] by simp, List.getLast?_concat]
          rw [this] at hlast
          cases hlast
          subst hst1
          refine ⟨rfl, rfl, X0, Or.inr rfl, ?_⟩
          simp only [h]
          rw [show P ++ Code.jumpNotTruthy 9999 :: (X0 ++ [Code.pop]) =
            (P ++ Code.jumpNotTruthy 9999 :: X0) ++ [Code.pop] by simp, List.dropLast_concat]
      · subst hst1
        exact ⟨rfl, rfl, X, Or.inl rfl, h⟩
    obtain ⟨hsc, hsy, consC, hX, hins⟩ := hstrip
    have hoff : (P ++ Code.jumpNotTruthy 9999 :: consC).length - P.length = consC.length + 1 := by
      simp
    simp only [hins, hoff] at hp
    have hswap : vswapRemove ((P ++ Code.jumpNotTruthy 9999 :: consC) ++
        [Code.jumpNotTruthy (consC.length + 1)]) P.length =
        some (P ++ Code.jumpNotTruthy (consC.length + 1) :: consC) := by
      rw [show (P ++ Code.jumpNotTruthy 9999 :: consC) ++
        [Code.jumpNotTruthy (consC.length + 1)] =
        P ++ Code.jumpNotTruthy 9999 :: (consC ++ [Code.jumpNotTruthy (consC.length + 1)]) by simp]
      exact vswapRemove_patch P _ _ consC
    simp only [hswap, Option.some.injEq] at hp
    subst hp
    refine ⟨consC, hX, ?_⟩
    cases st with
    | mk sc ins sy =>
      simp only at hsc hsy
      simp [hsc, hsy]

theorem patchAlt_spec (Q X : List Code) (st st' : CompilerState)
    (h : st.instructions = Q ++ Code.jump 9999 :: X)
    (hp : patchAlt Q.length st = some st') :
    ∃ altC pad offa, (X = altC ∨ X = altC ++ [Code.pop]) ∧
      ((altC = [] ∧ pad = [Code.null] ∧ offa = 1) ∨
       (altC ≠ [] ∧ pad = [] ∧ offa = altC.length)) ∧
      st' = { st with instructions := Q ++ Code.jump offa :: (altC ++ pad) } := by
  rw [patchAlt] at hp
  cases hsp : stripPop st with
  | none => rw [hsp] at hp; exact absurd hp (by simp)
  | some st1 =>
    simp only [hsp] at hp
    have hstrip : st1.scopes = st.scopes ∧ st1.symbolTable = st.symbolTable ∧
        ∃ altC, (X = altC ∨ X = altC ++ [Code.pop]) ∧
          st1.instructions = Q ++ Code.jump 9999 :: altC := by
      rcases stripPop_spec st st1 hsp with ⟨hlast, hst1⟩ | ⟨⟨c, hlast, hc⟩, hst1⟩
      · rw [h, List.getLast?_append_cons] at hlast
        rcases List.eq_nil_or_concat X with rfl | ⟨X0, xl, hX⟩
        · simp at hlast
        · rw [List.concat_eq_append] at hX
          subst hX
          have hxl : (Code.jump 9999 :: (X0 ++ [xl])).getLast? = some xl := by
            rw [show Code.jump 9999 :: (X0 ++ [xl]) =
              (Code.jump 9999 :: X0) ++ [xl] by simp, List.getLast?_concat]
          rw [hxl] at hlast
          cases hlast
          subst hst1
          refine ⟨rfl, rfl, X0, Or.inr rfl, ?_⟩
          simp only [h]
          rw [show Q ++ Code.jump 9999 :: (X0 ++ [Code.pop]) =
            (Q ++ Code.jump 9999 :: X0) ++ [Code.pop] by simp, List.dropLast_concat]
      · subst hst1
        exact ⟨rfl, rfl, X, Or.inl rfl, h⟩
    obtain ⟨hsc, hsy, altC, hX, hins⟩ := hstrip
    have hoff : (Q ++ Code.jump 9999 :: altC).length - 1 - Q.length = altC.length := by
      simp
    simp only [hins, hoff] at hp
    rcases List.eq_nil_or_concat altC with rfl | ⟨A0, al, hA⟩
    · rw [if_pos (show List.length ([] : List Code) = 0 from rfl)] at hp
      have hswap : vswapRemove (((emit Code.null st1).instructions) ++ [Code.jump 1]) Q.length =
          some (Q ++ Code.jump 1 :: [Code.null]) := by
        rw [emit, hins]
        rw [show (Q ++ Code.jump 9999 :: ([] : List Code)) ++ [Code.null] ++ [Code.jump 1] =
          Q ++ Code.jump 9999 :: ([Code.null] ++ [Code.jump 1]) by simp]
        exact vswapRemove_patch Q _ _ [Code.null]
      simp only [emit, hins] at hswap hp
      simp only [hswap, Option.some.injEq] at hp
      subst hp
      refine ⟨[], [Code.null], 1, hX, Or.inl ⟨rfl, rfl, rfl⟩, ?_⟩
      cases st with
      | mk sc ins sy =>
        simp only at hsc hsy
        simp [hsc, hsy]
    · have hne : altC ≠ [] := by
        rw [List.concat_eq_append] at hA
        subst hA
        simp
      have hlenne : ¬ altC.length = 0 := by
        simpa [List.length_eq_zero] using hne
      rw [if_neg hlenne] at hp
      have hswap : vswapRemove ((Q ++ Code.jump 9999 :: altC) ++ [Code.jump altC.length])
          Q.length = some (Q ++ Code.jump altC.length :: altC) := by
        rw [show (Q ++ Code.jump 9999 :: altC) ++ [Code.jump altC.length] =
          Q ++ Code.jump 9999 :: (altC ++ [Code.jump altC.length]) by simp]
        exact vswapRemove_patch Q _ _ altC
      simp only [hins] at hp
      simp only [hswap, Option.some.injEq] at hp
      subst hp
      refine ⟨altC, [], altC.length, hX, Or.inr ⟨hne, rfl, rfl⟩, ?_⟩
      cases st with
      | mk sc ins sy =>
        simp only at hsc hsy
        simp [hsc, hsy]

theorem ce_refl (st : CompilerState) : CompileEffects st st :=
  ⟨⟨[], by simp⟩, rfl, rfl, fun _ h => h⟩

theorem ce_trans {a b c : CompilerState} (h1 : CompileEffects a b)
    (h2 : CompileEffects b c) : CompileEffects a c := by
  obtain ⟨⟨d1, hd1⟩, hs1, ho1, hg1⟩ := h1
  obtain ⟨⟨d2, hd2⟩, hs2, ho2, hg2⟩ := h2
  refine ⟨⟨d1 ++ d2, by rw [hd2, hd1, List.append_assoc]⟩, hs2.trans hs1, ho2.trans ho1, ?_⟩
  intro hn hg
  exact hg2 (ho1.trans hn) (hg1 hn hg)

theorem ce_emit (c : Code) (st : CompilerState) : CompileEffects st (emit c st) :=
  ⟨⟨[c], rfl⟩, rfl, rfl, fun _ h => h⟩

theorem ce_emit_after {a b : CompilerState} (c : Code) (h : CompileEffects a b) :
    CompileEffects a (emit c b) := ce_trans h (ce_emit c b)

theorem outer_define (t : SymbolTable) (name : String) :
    (t.define name).2.outer = t.outer := by
  cases t with
  | mk o m nd => rfl

theorem allGlobalB_define_root (t : SymbolTable) (name : String) (ho : t.outer = none)
    (hg : allGlobalB t = Bool.true) : allGlobalB (t.define name).2 = Bool.true := by
  cases t with
  | mk o m nd =>
    cases o with
    | some o => exact absurd ho (by simp [SymbolTable.outer])
    | none =>
      simp only [allGlobalB, SymbolTable.define, SymbolTable.map, List.all_cons] at hg ⊢
      exact hg

theorem ce_define (st : CompilerState) (name : String) :
    CompileEffects st { st with symbolTable := (st.symbolTable.define name).2 } := by
  refine ⟨⟨[], by simp⟩, rfl, outer_define st.symbolTable name, ?_⟩
  intro hn hg
  exact allGlobalB_define_root st.symbolTable name hn hg

theorem defineParams_spec (ps : List Expression) : ∀ st st2,
    defineParams ps st = some st2 →
    st2.instructions = st.instructions ∧ st2.scopes = st.scopes ∧
    st2.symbolTable.outer = st.symbolTable.outer := by
  induction ps with
  | nil =>
    intro st st2 h
    rw [defineParams] at h
    cases h
    exact ⟨rfl, rfl, rfl⟩
  | cons e rest ih =>
    intro st st2 h
    cases e <;> rw [defineParams] at h <;>
      first
      | exact Option.noConfusion h
      | · rename_i n
          obtain ⟨h1, h2, h3⟩ := ih _ _ h
          exact ⟨h1, h2, h3.trans (outer_define st.symbolTable n)⟩

set_option maxHeartbeats 2000000 in
theorem compile_effects :
    (∀ s st st1, compileStatement s st = some st1 → CompileEffects st st1) ∧
    (∀ l st st1, compileStatements l st = some st1 → CompileEffects st st1) ∧
    (∀ e st st1, compileExpression e st = some st1 → CompileEffects st st1) ∧
    (∀ l st st1, compileExpressions l st = some st1 → CompileEffects st st1) := by
  apply compileStatement.mutual_induct
    (fun s st => ∀ st1, compileStatement s st = some st1 → CompileEffects st st1)
    (fun l st => ∀ st1, compileStatements l st = some st1 → CompileEffects st st1)
    (fun e st => ∀ st1, compileExpression e st = some st1 → CompileEffects st st1)
    (fun l st => ∀ st1, compileExpressions l st = some st1 → CompileEffects st st1)
  next =>
    intro v st name i hres st1 hc
    simp only [compileExpression, hres] at hc
    cases hc
    exact ce_emit _ _
  next =>
    intro v st name i hres st1 hc
    simp only [compileExpression, hres] at hc
    cases hc
    exact ce_emit _ _
  next =>
    intro v st hres st1 hc
    simp only [compileExpression, hres] at hc
    try exact Option.noConfusion hc
  next =>
    intro v st n hp st1 hc
    simp only [compileExpression, hp] at hc
    cases hc
    exact ce_emit _ _
  next =>
    intro v st hp st1 hc
    simp only [compileExpression, hp] at hc
    try exact Option.noConfusion hc
  next =>
    intro s st st1 hc
    simp only [compileExpression] at hc
    cases hc
    exact ce_emit _ _
  next =>
    intro st st1 hc
    simp only [compileExpression] at hc
    repeat' split at hc
    all_goals try exact Option.noConfusion hc
    all_goals cases hc
    all_goals exact ce_emit _ _
  next =>
    intro st hne st1 hc
    simp only [compileExpression] at hc
    repeat' split at hc
    all_goals try exact Option.noConfusion hc
    all_goals cases hc
    all_goals exact ce_emit _ _
  next =>
    intro v st h1 h2 st1 hc
    simp only [compileExpression] at hc
    repeat' split at hc
    all_goals try exact Option.noConfusion hc
    all_goals cases hc
    all_goals exact ce_emit _ _
  next =>
    intro exprs st hnone ih st1 hc
    simp only [compileExpression, hnone] at hc
    try exact Option.noConfusion hc
  next =>
    intro exprs st st1 hce ih st2 hc
    simp only [compileExpression, hce] at hc
    cases hc
    exact ce_emit_after _ (ih _ hce)
  next =>
    intro operator e st hnone ih st1 hc
    simp only [compileExpression, hnone] at hc
    try exact Option.noConfusion hc
  next =>
    intro e st st1 hce ih st2 hc
    simp only [compileExpression, hce] at hc
    repeat' split at hc
    all_goals try exact Option.noConfusion hc
    all_goals cases hc
    all_goals exact ce_emit_after _ (ih _ hce)
  next =>
    intro e st st1 hce hne ih st2 hc
    simp only [compileExpression, hce] at hc
    repeat' split at hc
    all_goals try exact Option.noConfusion hc
    all_goals cases hc
    all_goals exact ce_emit_after _ (ih _ hce)
  next =>
    intro operator e st st1 hce h1 h2 ih st2 hc
    simp only [compileExpression, hce] at hc
    repeat' split at hc
    all_goals try exact Option.noConfusion hc
    all_goals cases hc
    all_goals exact ce_emit_after _ (ih _ hce)
  next =>
    intro operator l r st hl ih st1 hc
    simp only [compileExpression, hl] at hc
    try exact Option.noConfusion hc
  next =>
    intro operator l r st st1 hl hr ihl ihr st2 hc
    simp only [compileExpression, hl, hr] at hc
    try exact Option.noConfusion hc
  next =>
    intro l r st st1 hl st2 hr ihl ihr st3 hc
    simp only [compileExpression, hl, hr] at hc
    repeat' split at hc
    all_goals try exact Option.noConfusion hc
    all_goals cases hc
    all_goals exact ce_emit_after _ (ce_trans (ihl _ hl) (ihr _ hr))
  next =>
    intro l r st st1 hl st2 hr h1 ihl ihr st3 hc
    simp only [compileExpression, hl, hr] at hc
    repeat' split at hc
    all_goals try exact Option.noConfusion hc
    all_goals cases hc
    all_goals exact ce_emit_after _ (ce_trans (ihl _ hl) (ihr _ hr))
  next =>
    intro l r st st1 hl st2 hr h1 h2 ihl ihr st3 hc
    simp only [compileExpression, hl, hr] at hc
    repeat' split at hc
    all_goals try exact Option.noConfusion hc
    all_goals cases hc
    all_goals exact ce_emit_after _ (ce_trans (ihl _ hl) (ihr _ hr))
  next =>
    intro l r st st1 hl st2 hr h1 h2 h3 ihl ihr st3 hc
    simp only [compileExpression, hl, hr] at hc
    repeat' split at hc
    all_goals try exact Option.noConfusion hc
    all_goals cases hc
    all_goals exact ce_emit_after _ (ce_trans (ihl _ hl) (ihr _ hr))
  next =>
    intro l r st st1 hl st2 hr h1 h2 h3 h4 ihl ihr st3 hc
    simp only [compileExpression, hl, hr] at hc
    repeat' split at hc
    all_goals try exact Option.noConfusion hc
    all_goals cases hc
    all_goals exact ce_emit_after _ (ce_trans (ihl _ hl) (ihr _ hr))
  next =>
    intro l r st st1 hl st2 hr h1 h2 h3 h4 h5 ihl ihr st3 hc
    simp only [compileExpression, hl, hr] at hc
    repeat' split at hc
    all_goals try exact Option.noConfusion hc
    all_goals cases hc
    all_goals exact ce_emit_after _ (ce_trans (ihl _ hl) (ihr _ hr))
  next =>
    intro l r st st1 hl st2 hr h1 h2 h3 h4 h5 h6 ihl ihr st3 hc
    simp only [compileExpression, hl, hr] at hc
    repeat' split at hc
    all_goals try exact Option.noConfusion hc
    all_goals cases hc
    all_goals exact ce_emit_after _ (ce_trans (ihl _ hl) (ihr _ hr))
  next =>
    intro l r st st1 hl st2 hr h1 h2 h3 h4 h5 h6 h7 ihl ihr st3 hc
    simp only [compileExpression, hl, hr] at hc
    repeat' split at hc
    all_goals try exact Option.noConfusion hc
    all_goals cases hc
    all_goals exact ce_emit_after _ (ce_trans (ihl _ hl) (ihr _ hr))
  next =>
    intro l r st st1 hl st2 hr h1 h2 h3 h4 h5 h6 h7 h8 ihl ihr st3 hc
    simp only [compileExpression, hl, hr] at hc
    repeat' split at hc
    all_goals try exact Option.noConfusion hc
    all_goals cases hc
    all_goals exact ce_emit_after _ (ce_trans (ihl _ hl) (ihr _ hr))
  next =>
    intro operator l r st st1 hl st2 hr h1 h2 h3 h4 h5 h6 h7 h8 h9 ihl ihr st3 hc
    simp only [compileExpression, hl, hr] at hc
    repeat' split at hc
    all_goals try exact Option.noConfusion hc
    all_goals cases hc
    all_goals exact ce_emit_after _ (ce_trans (ihl _ hl) (ihr _ hr))
  next =>
    intro c cons alt st hcnone ih st1 hc
    simp only [compileExpression, hcnone] at hc
    try exact Option.noConfusion hc
  next =>
    intro c cons alt st st1 hc1 hcons ihc ihcons st' hc
    simp only [compileExpression, hc1, hcons] at hc
    try exact Option.noConfusion hc
  next =>
    intro c cons alt st st1 hc1 pos st3 hcons hpc ihc ihcons st' hc
    have hpos : pos = st1.instructions.length := rfl
    rw [hpos] at hpc
    simp only [compileExpression, hc1, hcons, hpc] at hc
    try exact Option.noConfusion hc
  next =>
    intro c cons alt st st1 hc1 pos st3 hcons st4 hpc halt ihc ihcons ihalt st' hc
    have hpos : pos = st1.instructions.length := rfl
    rw [hpos] at hpc
    simp only [compileExpression, hc1, hcons, hpc, halt] at hc
    try exact Option.noConfusion hc
  next =>
    intro c cons alt st st1 hc1 pos st3 hcons st4 hpc st6 halt ihc ihcons ihalt st' hc
    have hpos : pos = st1.instructions.length := rfl
    rw [hpos] at hpc
    simp only [compileExpression, hc1, hcons, hpc, halt] at hc
    have ce1 : CompileEffects st st1 := ihc _ hc1
    obtain ⟨⟨dc, hdc⟩, hsC, hoC, hgC⟩ := ihcons _ hcons
    have h3ins : st3.instructions = st1.instructions ++ Code.jumpNotTruthy 9999 :: dc := by
      rw [hdc]; simp [emit]
    obtain ⟨consC, hXc, hst4⟩ := patchCons_spec st1.instructions dc st3 st4 h3ins hpc
    have ce3 : CompileEffects st st3 :=
      ce_trans ce1 (ce_trans (ce_emit (Code.jumpNotTruthy 9999) st1) ⟨⟨dc, hdc⟩, hsC, hoC, hgC⟩)
    have ce4 : CompileEffects st st4 := by
      obtain ⟨⟨d1, hd1⟩, _, _, _⟩ := ce1
      obtain ⟨_, hs3, ho3, hg3⟩ := ce3
      subst hst4
      exact ⟨⟨d1 ++ Code.jumpNotTruthy (consC.length + 1) :: consC, by simp [hd1]⟩,
        hs3, ho3, hg3⟩
    obtain ⟨⟨da, hda⟩, hsA, hoA, hgA⟩ := ihalt _ halt
    have h6ins : st6.instructions = st4.instructions ++ Code.jump 9999 :: da := by
      rw [hda]; simp [emit]
    obtain ⟨altC, pad, offa, hXa, hcasesA, hst'⟩ :=
      patchAlt_spec st4.instructions da st6 st' h6ins hc
    have ce6 : CompileEffects st st6 :=
      ce_trans ce4 (ce_trans (ce_emit (Code.jump 9999) st4) ⟨⟨da, hda⟩, hsA, hoA, hgA⟩)
    obtain ⟨⟨d4, hd4⟩, _, _, _⟩ := ce4
    obtain ⟨_, hs6, ho6, hg6⟩ := ce6
    subst hst'
    exact ⟨⟨d4 ++ Code.jump offa :: (altC ++ pad), by simp [hd4]⟩, hs6, ho6, hg6⟩
  next =>
    intro params body st hdp st1 hc
    simp only [compileExpression, hdp] at hc
    try exact Option.noConfusion hc
  next =>
    intro params body st st2 hdp hbody ih st' hc
    simp only [compileExpression, hdp, hbody] at hc
    try exact Option.noConfusion hc
  next =>
    intro params body st st2 hdp st3 hbody ih st' hc
    obtain ⟨hi1, hs1, ho1⟩ := defineParams_spec params _ _ hdp
    obtain ⟨⟨db, hdb⟩, hsb, hob, hgb⟩ := ih _ hbody
    simp only [compileExpression, hdp, hbody] at hc
    have ho3 : st3.symbolTable.outer = some st.symbolTable := hob.trans ho1
    have hs3 : st3.scopes = st.instructions :: st.scopes := hsb.trans hs1
    cases hsy : st3.symbolTable with
    | mk o m nd =>
      rw [hsy] at ho3
      have ho' : o = some st.symbolTable := ho3
      subst ho'
      simp only [finishFunction, leaveScope, hsy, hs3] at hc
      cases hc
      exact ce_emit _ _
  next =>
    intro f args st hf ih st1 hc
    simp only [compileExpression, hf] at hc
    try exact Option.noConfusion hc
  next =>
    intro f args st st1 hf hargs ihf iha st2 hc
    simp only [compileExpression, hf, hargs] at hc
    try exact Option.noConfusion hc
  next =>
    intro f args st st1 hf st2 hargs ihf iha st3 hc
    simp only [compileExpression, hf, hargs] at hc
    cases hc
    exact ce_emit_after _ (ce_trans (ihf _ hf) (iha _ hargs))
  next =>
    intro ident expr st hce ih st1 hc
    simp only [compileStatement, hce] at hc
    try exact Option.noConfusion hc
  next =>
    intro expr st st1 hce name defined hscope ih st' hc
    have hdef : defined = st1.symbolTable.define name := rfl
    rw [hdef] at hscope
    simp only [compileStatement, hce, hscope] at hc
    cases hc
    exact ce_trans (ih _ hce) (ce_trans (ce_define st1 name) (ce_emit _ _))
  next =>
    intro expr st st1 hce name defined hscope ih st' hc
    have hdef : defined = st1.symbolTable.define name := rfl
    rw [hdef] at hscope
    simp only [compileStatement, hce, hscope] at hc
    cases hc
    exact ce_trans (ih _ hce) (ce_trans (ce_define st1 name) (ce_emit _ _))
  next =>
    intro ident expr st st1 hce hnot ih st' hc
    cases ident
    case ident n => exact absurd rfl (hnot n)
    all_goals simp only [compileStatement, hce] at hc
    all_goals try exact Option.noConfusion hc
  next =>
    intro expr st hce ih st1 hc
    simp only [compileStatement, hce] at hc
    try exact Option.noConfusion hc
  next =>
    intro expr st st1 hce ih st' hc
    simp only [compileStatement, hce] at hc
    cases hc
    exact ce_emit_after _ (ih _ hce)
  next =>
    intro e st hce ih st1 hc
    simp only [compileStatement, hce] at hc
    try exact Option.noConfusion hc
  next =>
    intro e st st1 hce ih st' hc
    simp only [compileStatement, hce] at hc
    cases hc
    exact ce_emit_after _ (ih _ hce)
  next =>
    intro stmts st ih st' hc
    simp only [compileStatement] at hc
    exact ih _ hc
  next =>
    intro st st1 hc
    rw [compileExpressions] at hc
    cases hc
    exact ce_refl _
  next =>
    intro e rest st hnone ih st1 hc
    simp only [compileExpressions, hnone] at hc
    try exact Option.noConfusion hc
  next =>
    intro e rest st st1 hce ihe ihr st2 hc
    simp only [compileExpressions, hce] at hc
    exact ce_trans (ihe _ hce) (ihr _ hc)
  next =>
    intro st st1 hc
    rw [compileStatements] at hc
    cases hc
    exact ce_refl _
  next =>
    intro s rest st hnone ih st1 hc
    simp only [compileStatements, hnone] at hc
    try exact Option.noConfusion hc
  next =>
    intro s rest st st1 hce ihs ihr st2 hc
    simp only [compileStatements, hce] at hc
    exact ce_trans (ihs _ hce) (ihr _ hc)

theorem compileIf_layout (c : Expression) (cons alt : Statement) (st st' : CompilerState)
    (hc : compileExpression (Expression.cond c cons alt) st = some st') :
    ∃ st1 consC altC pad offc offa,
      compileExpression c st = some st1 ∧
      offc = consC.length + 1 ∧
      ((altC = [] ∧ pad = [Code.null] ∧ offa = 1) ∨
       (altC ≠ [] ∧ pad = [] ∧ offa = altC.length)) ∧
      st'.instructions = st1.instructions ++
        Code.jumpNotTruthy offc :: (consC ++ Code.jump offa :: (altC ++ pad)) := by
  rw [compileExpression] at hc
  cases hc1 : compileExpression c st with
  | none => rw [hc1] at hc; exact absurd hc (by simp)
  | some st1 =>
    simp only [hc1] at hc
    cases hcons : compileStatement cons (emit (Code.jumpNotTruthy 9999) st1) with
    | none => simp only [hcons] at hc; exact absurd hc (by simp)
    | some st3 =>
      simp only [hcons] at hc
      cases hpc : patchCons st1.instructions.length st3 with
      | none => simp only [hpc] at hc; exact absurd hc (by simp)
      | some st4 =>
        simp only [hpc] at hc
        cases halt : compileStatement alt (emit (Code.jump 9999) st4) with
        | none => simp only [halt] at hc; exact absurd hc (by simp)
        | some st6 =>
          simp only [halt] at hc
          obtain ⟨⟨dc, hdc⟩, _, _, _⟩ := compile_effects.1 cons _ _ hcons
          have h3ins : st3.instructions =
              st1.instructions ++ Code.jumpNotTruthy 9999 :: dc := by
            rw [hdc]; simp [emit]
          obtain ⟨consC, hXc, hst4⟩ := patchCons_spec st1.instructions dc st3 st4 h3ins hpc
          obtain ⟨⟨da, hda⟩, _, _, _⟩ := compile_effects.1 alt _ _ halt
          have h6ins : st6.instructions = st4.instructions ++ Code.jump 9999 :: da := by
            rw [hda]; simp [emit]
          obtain ⟨altC, pad, offa, hXa, hcasesA, hst'⟩ :=
            patchAlt_spec st4.instructions da st6 st' h6ins hc
          refine ⟨st1, consC, altC, pad, consC.length + 1, offa, rfl, rfl, hcasesA, ?_⟩
          subst hst'
          subst hst4
          simp

/-- C4 (amended): for every If expression the compiler compiles, the patched
operands satisfy offset_c = (stripped consequence length) + 1 and
offset_a = max(stripped alternative length, 1), with a Null pad emitted exactly
when the stripped alternative is empty, so offset_c + 2 + offset_a equals the
two stripped branch lengths plus the pad length plus 3. -/
theorem c4_amended_if_offsets : ∀ c cons alt st st',
    compileExpression (Expression.cond c cons alt) st = some st' →
    ∃ st1 consC altC pad offc offa,
      compileExpression c st = some st1 ∧
      offc = consC.length + 1 ∧
      ((altC = [] ∧ pad = [Code.null] ∧ offa = 1) ∨
       (altC ≠ [] ∧ pad = [] ∧ offa = altC.length)) ∧
      st'.instructions = st1.instructions ++
        Code.jumpNotTruthy offc :: (consC ++ Code.jump offa :: (altC ++ pad)) ∧
      offc + 2 + offa = consC.length + altC.length + pad.length + 3 := by
  intro c cons alt st st' hc
  obtain ⟨st1, consC, altC, pad, offc, offa, h1, h2, h3, h4⟩ :=
    compileIf_layout c cons alt st st' hc
  refine ⟨st1, consC, altC, pad, offc, offa, h1, h2, h3, h4, ?_⟩
  rcases h3 with ⟨rfl, rfl, rfl⟩ | ⟨hne, rfl, rfl⟩ <;> subst h2 <;> simp
  omega

theorem c4_amended_witness :
    compileExpression (Expression.cond (Expression.bool "true") (Statement.block [])
        (Statement.block [])) ⟨[], [], SymbolTable.new none⟩ =
      some ⟨[], [Code.true, Code.jumpNotTruthy 1, Code.jump 1, Code.null],
        SymbolTable.new none⟩ ∧
    (∃ st1 consC altC pad offc offa,
      compileExpression (Expression.bool "true") ⟨[], [], SymbolTable.new none⟩ = some st1 ∧
      offc = consC.length + 1 ∧
      ((altC = [] ∧ pad = [Code.null] ∧ offa = 1) ∨
       (altC ≠ [] ∧ pad = [] ∧ offa = altC.length)) ∧
      (⟨[], [Code.true, Code.jumpNotTruthy 1, Code.jump 1, Code.null],
        SymbolTable.new none⟩ : CompilerState).instructions = st1.instructions ++
        Code.jumpNotTruthy offc :: (consC ++ Code.jump offa :: (altC ++ pad)) ∧
      offc + 2 + offa = consC.length + altC.length + pad.length + 3) := by
  have h : compileExpression (Expression.cond (Expression.bool "true") (Statement.block [])
      (Statement.block [])) ⟨[], [], SymbolTable.new none⟩ =
      some ⟨[], [Code.true, Code.jumpNotTruthy 1, Code.jump 1, Code.null],
        SymbolTable.new none⟩ := by
    simp [compileExpression, compileStatement, compileStatements, compileExpressions,
      SymbolTable.new, emit, stripPop, patchCons, patchAlt, vswapRemove]
  exact ⟨h, c4_amended_if_offsets _ _ _ _ _ h⟩

/-- C7: compiling a Function expression restores the compiler's symbol table
and saved-scope stack to exactly their prior state, appending only the
CompiledFunction constant; the num_definitions of the inner table at the
moment of leave_scope becomes that function's num_locals; and the table
returned by compile from the root table is always a root table: no outer
chain and only Global symbols, so no Local symbol leaks out. -/
theorem c7_function_scope_restore :
    (∀ params body st st', compileExpression (Expression.func params body) st = some st' →
      st'.symbolTable = st.symbolTable ∧ st'.scopes = st.scopes ∧
      ∃ bodyC numLocals,
        st'.instructions = st.instructions ++
          [Code.constant (Object.compiledFunction bodyC numLocals params.length)]) ∧
    (∀ numParas st st', finishFunction numParas st = some st' →
      ∃ bodyC, st'.instructions.getLast? =
        some (Code.constant (Object.compiledFunction bodyC
          st.symbolTable.numDefinitions numParas))) ∧
    (∀ input instrs t, compilerRun input (SymbolTable.new none) = some (instrs, t) →
      rootGlobalB t = Bool.true) := by
  refine ⟨?_, ?_, ?_⟩
  · intro params body st st' hc
    rw [compileExpression] at hc
    cases hdp : defineParams params (enterScope st) with
    | none => rw [hdp] at hc; exact absurd hc (by simp)
    | some st2 =>
      simp only [hdp] at hc
      cases hbody : compileStatement body st2 with
      | none => simp only [hbody] at hc; exact absurd hc (by simp)
      | some st3 =>
        simp only [hbody] at hc
        obtain ⟨hi1, hs1, ho1⟩ := defineParams_spec params _ _ hdp
        obtain ⟨⟨db, hdb⟩, hsb, hob, hgb⟩ := compile_effects.1 body _ _ hbody
        have ho3 : st3.symbolTable.outer = some st.symbolTable := hob.trans ho1
        have hs3 : st3.scopes = st.instructions :: st.scopes := hsb.trans hs1
        cases hsy : st3.symbolTable with
        | mk o m nd =>
          rw [hsy] at ho3
          have ho' : o = some st.symbolTable := ho3
          subst ho'
          simp only [finishFunction, leaveScope, hsy, hs3] at hc
          cases hc
          exact ⟨rfl, rfl, _, nd, rfl⟩
  · intro numParas st st' hc
    cases hsy : st.symbolTable with
    | mk o m nd =>
      cases o with
      | none =>
        rw [finishFunction, leaveScope, hsy] at hc
        exact absurd hc (by simp)
      | some t =>
        cases hsc : st.scopes with
        | nil =>
          rw [finishFunction, leaveScope, hsy, hsc] at hc
          exact absurd hc (by simp)
        | cons prev rest =>
          simp only [finishFunction, leaveScope, hsy, hsc] at hc
          cases hc
          simp only [emit, SymbolTable.numDefinitions]
          exact ⟨_, List.getLast?_concat _⟩
  · intro input instrs t hc
    rw [compilerRun] at hc
    cases hcs : compileStatements input ⟨[], [], SymbolTable.new none⟩ with
    | none => rw [hcs] at hc; exact absurd hc (by simp)
    | some stf =>
      simp only [hcs, Option.some.injEq, Prod.mk.injEq] at hc
      obtain ⟨h1, h2⟩ := hc
      subst h2
      obtain ⟨_, _, houter, hglob⟩ := compile_effects.2.1 input _ _ hcs
      have ho : stf.symbolTable.outer = none := houter
      have hg : allGlobalB stf.symbolTable = Bool.true := hglob rfl rfl
      simp [rootGlobalB, ho, hg]

theorem c7_witness :
    compileExpression (Expression.func [] (Statement.block []))
        ⟨[], [], SymbolTable.new none⟩ =
      some ⟨[], [Code.constant (Object.compiledFunction [Code.returnNone] 0 0)],
        SymbolTable.new none⟩ ∧
    ((⟨[], [Code.constant (Object.compiledFunction [Code.returnNone] 0 0)],
        SymbolTable.new none⟩ : CompilerState).symbolTable =
      (⟨[], [], SymbolTable.new none⟩ : CompilerState).symbolTable ∧
     (⟨[], [Code.constant (Object.compiledFunction [Code.returnNone] 0 0)],
        SymbolTable.new none⟩ : CompilerState).scopes =
      (⟨[], [], SymbolTable.new none⟩ : CompilerState).scopes ∧
     ∃ bodyC numLocals,
       (⟨[], [Code.constant (Object.compiledFunction [Code.returnNone] 0 0)],
          SymbolTable.new none⟩ : CompilerState).instructions =
        (⟨[], [], SymbolTable.new none⟩ : CompilerState).instructions ++
          [Code.constant (Object.compiledFunction bodyC numLocals
            (List.length ([] : List Expression)))]) := by
  have h : compileExpression (Expression.func [] (Statement.block []))
      ⟨[], [], SymbolTable.new none⟩ =
      some ⟨[], [Code.constant (Object.compiledFunction [Code.returnNone] 0 0)],
        SymbolTable.new none⟩ := by
    simp [compileExpression, compileStatement, compileStatements, defineParams,
      enterScope, leaveScope, finishFunction, SymbolTable.new, emit]
  exact ⟨h, c7_function_scope_restore.1 [] (Statement.block []) _ _ h⟩

theorem vpop_length {α : Type} (l rest : List α) (x : α) (h : vpop l = some (x, rest)) :
    l.length = rest.length + 1 := by
  rw [vpop] at h
  cases hg : l.getLast? with
  | none => rw [hg] at h; exact absurd h (by simp)
  | some y =>
    rw [hg] at h
    cases h
    have hne : l ≠ [] := by
      intro he
      rw [he] at hg
      exact absurd hg (by simp)
    rw [List.length_dropLast]
    have hlen : l.length ≠ 0 := by
      simpa [List.length_eq_zero] using hne
    omega

theorem runChunk_nil (s : VMState) : runChunk [] s = some s := rfl

theorem runChunk_append (A B : List Code) : ∀ s : VMState,
    runChunk (A ++ B) s = (runChunk A s).bind (runChunk B) := by
  induction A with
  | nil => intro s; rfl
  | cons c A' ih =>
    intro s
    rw [List.cons_append, runChunk, runChunk]
    by_cases hj : s.jump = 0
    · rw [if_pos hj, if_pos hj]
      cases execute s c with
      | none => rfl
      | some s' => exact ih s'
    · rw [if_neg hj, if_neg hj]
      exact ih _

theorem runChunk_skip (L : List Code) : ∀ (s : VMState) (j : Nat),
    s.jump = L.length + j → runChunk L s = some { s with jump := j } := by
  induction L with
  | nil =>
    intro s j hj
    cases s
    simp at hj
    simp [runChunk_nil, hj]
  | cons c L' ih =>
    intro s j hj
    rw [runChunk]
    have hne : ¬ s.jump = 0 := by simp [hj]
    rw [if_neg hne]
    have := ih { s with jump := s.jump - 1 } j (by simp [hj])
    rw [this]

theorem exArith_spec (op : Code) (s t : VMState) (h : executeArithmetic op s = some t) :
    t.frames = s.frames ∧ t.jump = s.jump ∧ t.instructions = s.instructions ∧
    t.stack.length + 1 = s.stack.length := by
  rw [executeArithmetic] at h
  cases hv1 : vpop s.stack with
  | none => rw [hv1] at h; exact Option.noConfusion h
  | some p1 =>
    obtain ⟨o1, stack1⟩ := p1
    have hl1 := vpop_length _ _ _ hv1
    cases o1 <;> simp only [hv1] at h
    case int r =>
      cases hv2 : vpop stack1 with
      | none => simp only [hv2] at h; exact Option.noConfusion h
      | some p2 =>
        obtain ⟨o2, stack2⟩ := p2
        have hl2 := vpop_length _ _ _ hv2
        cases o2 <;> simp only [hv2] at h
        case int l =>
          repeat' split at h
          all_goals try exact Option.noConfusion h
          all_goals cases h
          all_goals refine ⟨rfl, rfl, rfl, ?_⟩
          all_goals simp only [vpush, List.length_append, List.length_cons, List.length_nil]
          all_goals omega
        all_goals exact Option.noConfusion h
    case str a =>
      cases hv2 : vpop stack1 with
      | none => simp only [hv2] at h; exact Option.noConfusion h
      | some p2 =>
        obtain ⟨o2, stack2⟩ := p2
        have hl2 := vpop_length _ _ _ hv2
        cases o2 <;> simp only [hv2] at h
        case str b =>
          repeat' split at h
          all_goals try exact Option.noConfusion h
          all_goals cases h
          all_goals refine ⟨rfl, rfl, rfl, ?_⟩
          all_goals simp only [vpush, List.length_append, List.length_cons, List.length_nil]
          all_goals omega
        all_goals exact Option.noConfusion h
    all_goals exact Option.noConfusion h

theorem exComp_spec (op : Code) (s t : VMState) (h : executeComparison op s = some t) :
    t.frames = s.frames ∧ t.jump = s.jump ∧ t.instructions = s.instructions ∧
    t.stack.length + 1 = s.stack.length := by
  rw [executeComparison] at h
  cases hv1 : vpop s.stack with
  | none => rw [hv1] at h; exact Option.noConfusion h
  | some p1 =>
    obtain ⟨o1, stack1⟩ := p1
    have hl1 := vpop_length _ _ _ hv1
    cases o1 <;> simp only [hv1] at h
    case int r =>
      cases hv2 : vpop stack1 with
      | none => simp only [hv2] at h; exact Option.noConfusion h
      | some p2 =>
        obtain ⟨o2, stack2⟩ := p2
        have hl2 := vpop_length _ _ _ hv2
        cases o2 <;> simp only [hv2] at h
        case int l =>
          repeat' split at h
          all_goals try exact Option.noConfusion h
          all_goals cases h
          all_goals refine ⟨rfl, rfl, rfl, ?_⟩
          all_goals simp only [vpush, List.length_append, List.length_cons, List.length_nil]
          all_goals omega
        all_goals exact Option.noConfusion h
    case bool a =>
      cases hv2 : vpop stack1 with
      | none => simp only [hv2] at h; exact Option.noConfusion h
      | some p2 =>
        obtain ⟨o2, stack2⟩ := p2
        have hl2 := vpop_length _ _ _ hv2
        cases o2 <;> simp only [hv2] at h
        case bool b =>
          repeat' split at h
          all_goals try exact Option.noConfusion h
          all_goals cases h
          all_goals refine ⟨rfl, rfl, rfl, ?_⟩
          all_goals simp only [vpush, List.length_append, List.length_cons, List.length_nil]
          all_goals omega
        all_goals exact Option.noConfusion h
    all_goals exact Option.noConfusion h

theorem exPre_spec (op : Code) (s t : VMState) (h : executePre op s = some t) :
    t.frames = s.frames ∧ t.jump = s.jump ∧ t.instructions = s.instructions ∧
    t.stack.length = s.stack.length := by
  cases op <;> simp only [executePre] at h
  case minus =>
    cases hv : vpop s.stack with
    | none => rw [hv] at h; exact Option.noConfusion h
    | some p =>
      obtain ⟨o, stack1⟩ := p
      have hl := vpop_length _ _ _ hv
      cases o <;> simp only [hv] at h
      case int v =>
        cases h
        refine ⟨rfl, rfl, rfl, ?_⟩
        simp only [vpush, List.length_append, List.length_cons, List.length_nil]
        omega
      all_goals exact Option.noConfusion h
  case bang =>
    cases hv : vpop s.stack with
    | none => rw [hv] at h; exact Option.noConfusion h
    | some p =>
      obtain ⟨o, stack1⟩ := p
      have hl := vpop_length _ _ _ hv
      cases o <;> simp only [hv] at h
      case bool v =>
        cases h
        refine ⟨rfl, rfl, rfl, ?_⟩
        simp only [vpush, List.length_append, List.length_cons, List.length_nil]
        omega
      case null =>
        cases h
        refine ⟨rfl, rfl, rfl, ?_⟩
        simp only [vpush, List.length_append, List.length_cons, List.length_nil]
        omega
      all_goals exact Option.noConfusion h
  all_goals cases h
  all_goals exact ⟨rfl, rfl, rfl, rfl⟩

theorem popN_spec : ∀ (n : Nat) (l xs rest : List Object),
    popN n l = some (xs, rest) → l.length = rest.length + n := by
  intro n
  induction n with
  | zero =>
    intro l xs rest h
    rw [popN] at h
    cases h
    rfl
  | succ k ih =>
    intro l xs rest h
    rw [popN] at h
    cases hv : vpop l with
    | none => rw [hv] at h; exact Option.noConfusion h
    | some p =>
      obtain ⟨x, l1⟩ := p
      have hl := vpop_length _ _ _ hv
      simp only [hv] at h
      cases hp : popN k l1 with
      | none => simp only [hp] at h; exact Option.noConfusion h
      | some q =>
        obtain ⟨xs1, rest1⟩ := q
        have := ih l1 xs1 rest1 hp
        simp only [hp] at h
        cases h
        omega

set_option maxHeartbeats 2000000 in
theorem execute_nf (c : Code) (s : VMState) (X : List Code)
    (hc : nfCode c = Bool.true) (hf : s.frames = []) :
    execute { s with instructions := X } c =
      Option.map (fun t => { t with instructions := X }) (execute s c) := by
  cases c
  case callOp n => simp [nfCode] at hc
  all_goals simp only [execute, executeArithmetic, executeComparison, executePre,
    executeJumpNotTruthy, executeJump, executeArray, executeIndexOp,
    executeReturnValue, executeReturn, popFrame, hf]
  all_goals repeat' split
  all_goals simp_all

set_option maxHeartbeats 2000000 in
theorem execute_nf_state (c : Code) (s t : VMState)
    (hc : nfCode c = Bool.true) (hf : s.frames = []) (h : execute s c = some t) :
    t.frames = [] ∧ t.instructions = s.instructions := by
  cases c
  case callOp n => simp [nfCode] at hc
  all_goals simp only [execute, executeArithmetic, executeComparison, executePre,
    executeJumpNotTruthy, executeJump, executeArray, executeIndexOp,
    executeReturnValue, executeReturn, popFrame, hf] at h
  all_goals repeat' split at h
  all_goals try exact Option.noConfusion h
  all_goals cases h
  all_goals exact ⟨rfl, rfl⟩

theorem runFuel_chunk : ∀ (code : List Code) (s : VMState),
    ChunkNF code → s.frames = [] →
    runFuel (code.length + 1) { s with instructions := code } =
      (match runChunk code s with
       | none => RunOutcome.fatal
       | some t => RunOutcome.ok { t with instructions := [] }) := by
  intro code
  induction code with
  | nil =>
    intro s hnf hf
    rw [runFuel_succ]
    simp only [runChunk_nil]
    rfl
  | cons c rest ih =>
    intro s hnf hf
    have hnfc : nfCode c = Bool.true := hnf c (by simp)
    have hnfr : ChunkNF rest := fun d hd => hnf d (by simp [hd])
    rw [List.length_cons, runFuel_succ]
    have hstep : stepOnce { s with instructions := c :: rest } =
        (if s.jump = 0 then
          match execute { s with instructions := rest } c with
          | none => StepRes.fatal
          | some s2 => StepRes.next s2
        else StepRes.next { s with instructions := rest, jump := s.jump - 1 }) := rfl
    rw [hstep, runChunk]
    by_cases hj : s.jump = 0
    · rw [if_pos hj, if_pos hj, execute_nf c s rest hnfc hf]
      cases hx : execute s c with
      | none => rfl
      | some t =>
        simp only [Option.map_some]
        obtain ⟨htf, hti⟩ := execute_nf_state c s t hnfc hf hx
        have := ih t hnfr htf
        exact this
    · rw [if_neg hj, if_neg hj]
      have := ih { s with jump := s.jump - 1 } hnfr hf
      exact this

theorem chunkNF_nil : ChunkNF [] := fun c hc => absurd hc (by simp)

theorem chunkNF_append {A B : List Code} (hA : ChunkNF A) (hB : ChunkNF B) :
    ChunkNF (A ++ B) := by
  intro c hc
  rcases List.mem_append.mp hc with h | h
  · exact hA c h
  · exact hB c h

theorem chunkNF_cons {c : Code} {B : List Code} (hc : nfCode c = Bool.true)
    (hB : ChunkNF B) : ChunkNF (c :: B) := by
  intro d hd
  rcases List.mem_cons.mp hd with rfl | h
  · exact hc
  · exact hB d h

theorem chunkNF_single {c : Code} (hc : nfCode c = Bool.true) : ChunkNF [c] :=
  chunkNF_cons hc chunkNF_nil

theorem chunkNF_of_append_left {A B : List Code} (h : ChunkNF (A ++ B)) : ChunkNF A :=
  fun c hc => h c (List.mem_append.mpr (Or.inl hc))

theorem echunk_nil : EChunk [] 0 := by
  intro s hf hj
  exact Or.inr ⟨s, runChunk_nil s, hf, hj, by omega⟩

theorem echunk_weaken {A : List Code} {m n : Nat} (hmn : m ≤ n) (hA : EChunk A m) :
    EChunk A n := by
  intro s hf hj
  rcases hA s hf hj with hnone | ⟨t, ht, htf, htj, htl⟩
  · exact Or.inl hnone
  · exact Or.inr ⟨t, ht, htf, htj, by omega⟩

theorem echunk_append {A B : List Code} {m n : Nat} (hA : EChunk A m) (hB : EChunk B n) :
    EChunk (A ++ B) (m + n) := by
  intro s hf hj
  rw [runChunk_append]
  rcases hA s hf hj with hnone | ⟨t, ht, htf, htj, htl⟩
  · rw [hnone]; exact Or.inl rfl
  · rw [ht]
    simp only [Option.some_bind]
    rcases hB t htf htj with hnone | ⟨u, hu, huf, huj, hul⟩
    · exact Or.inl hnone
    · exact Or.inr ⟨u, hu, huf, huj, by omega⟩

theorem echunk_single {c : Code} {n : Nat} (hc : ExecOk c n) : EChunk [c] n := by
  intro s hf hj
  rw [runChunk, if_pos hj]
  cases hx : execute s c with
  | none => exact Or.inl rfl
  | some t =>
    obtain ⟨h1, h2, h3⟩ := hc s t hx
    exact Or.inr ⟨t, runChunk_nil t, h1.trans hf, h2.trans hj, h3⟩

theorem echunk_append_dec {A : List Code} {n : Nat} {c : Code} (hA : EChunk A (n + 1))
    (hc : DecOp c) : EChunk (A ++ [c]) n := by
  intro s hf hj
  rw [runChunk_append]
  rcases hA s hf hj with hnone | ⟨t, ht, htf, htj, htl⟩
  · rw [hnone]; exact Or.inl rfl
  · rw [ht]
    simp only [Option.some_bind]
    rw [runChunk, if_pos htj]
    cases hx : execute t c with
    | none => exact Or.inl rfl
    | some u =>
      obtain ⟨h1, h2, h3⟩ := hc t u hx
      exact Or.inr ⟨u, runChunk_nil u, h1.trans htf, h2.trans htj, by omega⟩

theorem pop_exec (t : VMState) : ∃ u, execute t Code.pop = some u ∧
    u.frames = t.frames ∧ u.jump = t.jump ∧
    (u.stack.length + 1 = t.stack.length ∨
     (t.stack.length = 0 ∧ u.stack.length = 0)) := by
  rw [execute]
  cases hv : vpop t.stack with
  | none =>
    refine ⟨{ t with lastPopped := none }, rfl, rfl, rfl, Or.inr ⟨?_, ?_⟩⟩ <;>
    · rw [vpop] at hv
      cases hg : t.stack.getLast? with
      | some x => rw [hg] at hv; exact absurd hv (by simp)
      | none =>
        have : t.stack = [] := List.getLast?_eq_none_iff.mp ?_
        · simp [this]
        · exact hg
  | some p =>
    obtain ⟨v, rest⟩ := p
    have hl := vpop_length _ _ _ hv
    exact ⟨{ t with stack := rest, lastPopped := some v }, rfl, rfl, rfl, Or.inl (by simp only []; omega)⟩

theorem echunk_append_pop {A : List Code} {n : Nat} (hA : EChunk A (n + 1)) :
    EChunk (A ++ [Code.pop]) n := by
  intro s hf hj
  rw [runChunk_append]
  rcases hA s hf hj with hnone | ⟨t, ht, htf, htj, htl⟩
  · rw [hnone]; exact Or.inl rfl
  · rw [ht]
    simp only [Option.some_bind]
    rw [runChunk, if_pos htj]
    obtain ⟨u, hu, h1, h2, h3⟩ := pop_exec t
    rw [hu]
    refine Or.inr ⟨u, runChunk_nil u, h1.trans htf, h2.trans htj, ?_⟩
    omega

theorem echunk_append_arr {A : List Code} {n : Nat} (hA : EChunk A n) :
    EChunk (A ++ [Code.array n]) 1 := by
  intro s hf hj
  rw [runChunk_append]
  rcases hA s hf hj with hnone | ⟨t, ht, htf, htj, htl⟩
  · rw [hnone]; exact Or.inl rfl
  · rw [ht]
    simp only [Option.some_bind]
    rw [runChunk, if_pos htj]
    have hx : execute t (Code.array n) = executeArray n t := rfl
    rw [hx, executeArray]
    cases hp : popN n t.stack with
    | none => exact Or.inl rfl
    | some q =>
      obtain ⟨popped, rest⟩ := q
      have hl := popN_spec n t.stack popped rest hp
      refine Or.inr ⟨_, runChunk_nil _, htf, htj, ?_⟩
      simp only [vpush, List.length_append, List.length_cons, List.length_nil]
      omega

theorem execok_constant (obj : Object) : ExecOk (Code.constant obj) 1 := by
  intro s t h
  cases h
  refine ⟨rfl, rfl, ?_⟩
  simp [vpush]

theorem execok_true : ExecOk Code.true 1 := by
  intro s t h
  cases h
  refine ⟨rfl, rfl, ?_⟩
  simp [vpush]

theorem execok_false : ExecOk Code.false 1 := by
  intro s t h
  cases h
  refine ⟨rfl, rfl, ?_⟩
  simp [vpush]

theorem execok_null : ExecOk Code.null 1 := by
  intro s t h
  cases h
  refine ⟨rfl, rfl, ?_⟩
  simp [vpush]

theorem execok_getGlobal (i : Nat) : ExecOk (Code.getGlobal i) 1 := by
  intro s t h
  rw [execute] at h
  cases hg : glookup s.globals i with
  | none => rw [hg] at h; exact Option.noConfusion h
  | some v =>
    rw [hg] at h
    cases h
    refine ⟨rfl, rfl, ?_⟩
    simp [vpush]

theorem execok_getLocal (i : Nat) : ExecOk (Code.getLocal i) 1 := by
  intro s t h
  rw [execute] at h
  cases hg : s.stack.get? (s.base + i) with
  | none => rw [hg] at h; exact Option.noConfusion h
  | some v =>
    rw [hg] at h
    cases h
    refine ⟨rfl, rfl, ?_⟩
    simp [vpush]

theorem execok_minus : ExecOk Code.minus 0 := by
  intro s t h
  obtain ⟨h1, h2, h3, h4⟩ := exPre_spec Code.minus s t h
  exact ⟨h1, h2, by omega⟩

theorem execok_bang : ExecOk Code.bang 0 := by
  intro s t h
  obtain ⟨h1, h2, h3, h4⟩ := exPre_spec Code.bang s t h
  exact ⟨h1, h2, by omega⟩

theorem decop_arith (op : Code) (hop : op = Code.add ∨ op = Code.sub ∨ op = Code.mul ∨
    op = Code.div) : DecOp op := by
  intro s t h
  rcases hop with rfl | rfl | rfl | rfl
  · obtain ⟨h1, h2, h3, h4⟩ := exArith_spec Code.add s t h
    exact ⟨h1, h2, h4⟩
  · obtain ⟨h1, h2, h3, h4⟩ := exArith_spec Code.sub s t h
    exact ⟨h1, h2, h4⟩
  · obtain ⟨h1, h2, h3, h4⟩ := exArith_spec Code.mul s t h
    exact ⟨h1, h2, h4⟩
  · obtain ⟨h1, h2, h3, h4⟩ := exArith_spec Code.div s t h
    exact ⟨h1, h2, h4⟩

theorem decop_comp (op : Code) (hop : op = Code.equal ∨ op = Code.notEqual ∨
    op = Code.greaterThan ∨ op = Code.lessThan) : DecOp op := by
  intro s t h
  rcases hop with rfl | rfl | rfl | rfl
  · obtain ⟨h1, h2, h3, h4⟩ := exComp_spec Code.equal s t h
    exact ⟨h1, h2, h4⟩
  · obtain ⟨h1, h2, h3, h4⟩ := exComp_spec Code.notEqual s t h
    exact ⟨h1, h2, h4⟩
  · obtain ⟨h1, h2, h3, h4⟩ := exComp_spec Code.greaterThan s t h
    exact ⟨h1, h2, h4⟩
  · obtain ⟨h1, h2, h3, h4⟩ := exComp_spec Code.lessThan s t h
    exact ⟨h1, h2, h4⟩

theorem decop_index : DecOp Code.index := by
  intro s t h
  have hx : execute s Code.index = executeIndexOp s := rfl
  rw [hx, executeIndexOp] at h
  cases hv1 : vpop s.stack with
  | none => rw [hv1] at h; exact Option.noConfusion h
  | some p1 =>
    obtain ⟨o1, stack1⟩ := p1
    have hl1 := vpop_length _ _ _ hv1
    cases o1 <;> simp only [hv1] at h
    case int v =>
      cases hv2 : vpop stack1 with
      | none => simp only [hv2] at h; exact Option.noConfusion h
      | some p2 =>
        obtain ⟨o2, stack2⟩ := p2
        have hl2 := vpop_length _ _ _ hv2
        cases o2 <;> simp only [hv2] at h
        case arr elems =>
          repeat' split at h
          all_goals cases h
          all_goals refine ⟨rfl, rfl, ?_⟩
          all_goals simp only [vpush, List.length_append, List.length_cons, List.length_nil]
          all_goals omega
        all_goals exact Option.noConfusion h
    all_goals exact Option.noConfusion h

theorem decop_setGlobal (i : Nat) : DecOp (Code.setGlobal i) := by
  intro s t h
  rw [execute] at h
  cases hv : vpop s.stack with
  | none => rw [hv] at h; exact Option.noConfusion h
  | some p =>
    obtain ⟨v, rest⟩ := p
    have hl := vpop_length _ _ _ hv
    rw [hv] at h
    cases h
    exact ⟨rfl, rfl, by simp only []; omega⟩

theorem vswapRemove_length {α : Type} (l l' : List α) (i : Nat)
    (h : vswapRemove l i = some l') : l.length = l'.length + 1 := by
  rw [vswapRemove] at h
  cases hg : l.getLast? with
  | none => rw [hg] at h; exact Option.noConfusion h
  | some x =>
    simp only [hg] at h
    by_cases hi : i < l.length
    · rw [if_pos hi] at h
      cases h
      simp only [List.length_dropLast, List.length_set]
      omega
    · rw [if_neg hi] at h
      exact Option.noConfusion h

theorem decop_setLocal (i : Nat) : DecOp (Code.setLocal i) := by
  intro s t h
  rw [execute] at h
  cases hv : vswapRemove s.stack (s.base + i) with
  | none => rw [hv] at h; exact Option.noConfusion h
  | some stack1 =>
    have hl := vswapRemove_length _ _ _ hv
    rw [hv] at h
    cases h
    exact ⟨rfl, rfl, by simp only []; omega⟩

theorem exJnt_spec (off : Nat) (s t : VMState)
    (h : execute s (Code.jumpNotTruthy off) = some t) :
    t.frames = s.frames ∧ t.stack.length + 1 = s.stack.length ∧
    (t.jump = s.jump ∨ t.jump = off) := by
  have hx : execute s (Code.jumpNotTruthy off) = executeJumpNotTruthy off s := rfl
  rw [hx, executeJumpNotTruthy] at h
  cases hv : vpop s.stack with
  | none => rw [hv] at h; exact Option.noConfusion h
  | some p =>
    obtain ⟨v, rest⟩ := p
    have hl := vpop_length _ _ _ hv
    cases v <;> simp only [hv] at h
    case bool b =>
      cases b <;> simp only [] at h <;> cases h
      · exact ⟨rfl, by simp only [executeJump]; omega, Or.inr (by simp [executeJump])⟩
      · exact ⟨rfl, by simp only []; omega, Or.inl rfl⟩
    case null =>
      cases h
      exact ⟨rfl, by simp only [executeJump]; omega, Or.inr (by simp [executeJump])⟩
    all_goals cases h
    all_goals exact ⟨rfl, by simp only []; omega, Or.inl rfl⟩

theorem ret_fatal (s : VMState) (hf : s.frames = []) :
    execute s Code.returnValue = none ∧ execute s Code.returnNone = none := by
  constructor
  · have hx : execute s Code.returnValue = executeReturnValue s := rfl
    rw [hx, executeReturnValue]
    cases hv : vpop s.stack with
    | none => rfl
    | some p =>
      obtain ⟨v, rest⟩ := p
      simp [popFrame, hf]
  · have hx : execute s Code.returnNone = executeReturn s := rfl
    rw [hx, executeReturn]
    simp [popFrame, hf]

theorem concat_inj {α : Type} {A B : List α} {x y : α} (h : A ++ [x] = B ++ [y]) :
    A = B ∧ x = y := by
  have h1 := congrArg List.getLast? h
  simp only [List.getLast?_concat, Option.some.injEq] at h1
  have h2 := congrArg List.dropLast h
  simp only [List.dropLast_concat] at h2
  exact ⟨h2, h1⟩

theorem append_concat_split {α : Type} {A B Y : List α} {x : α} (h : A ++ B = Y ++ [x]) :
    (B = [] ∧ A = Y ++ [x]) ∨ ∃ Y2, B = Y2 ++ [x] ∧ Y = A ++ Y2 := by
  rcases List.eq_nil_or_concat B with rfl | ⟨B0, b, hB⟩
  · left
    exact ⟨rfl, by simpa using h⟩
  · right
    rw [List.concat_eq_append] at hB
    subst hB
    rw [← List.append_assoc] at h
    obtain ⟨h1, rfl⟩ := concat_inj h
    exact ⟨B0, rfl, h1.symm⟩

theorem echunk_append_ret {A : List Code} {m n : Nat} (hA : EChunk A m) :
    EChunk (A ++ [Code.returnValue]) n := by
  intro s hf hj
  rw [runChunk_append]
  rcases hA s hf hj with hnone | ⟨t, ht, htf, htj, htl⟩
  · rw [hnone]; exact Or.inl rfl
  · rw [ht]
    simp only [Option.some_bind]
    rw [runChunk, if_pos htj, (ret_fatal t htf).1]
    exact Or.inl rfl

theorem echunk_cond {dq consC altC pad : List Code} {offa : Nat}
    (hq : EChunk dq 1) (hcons : EChunk consC 1) (haltc : EChunk altC 1)
    (hpad : (altC = [] ∧ pad = [Code.null] ∧ offa = 1) ∨
            (altC ≠ [] ∧ pad = [] ∧ offa = altC.length)) :
    EChunk (dq ++ Code.jumpNotTruthy (consC.length + 1) ::
      (consC ++ Code.jump offa :: (altC ++ pad))) 1 := by
  have hlen : (altC ++ pad).length = offa := by
    rcases hpad with ⟨rfl, rfl, rfl⟩ | ⟨hne, rfl, rfl⟩ <;> simp
  intro s hf hj
  rw [runChunk_append]
  rcases hq s hf hj with hnone | ⟨m1, hm1, hm1f, hm1j, hm1l⟩
  · rw [hnone]; exact Or.inl rfl
  rw [hm1]
  simp only [Option.some_bind]
  rw [runChunk, if_pos hm1j]
  cases hx : execute m1 (Code.jumpNotTruthy (consC.length + 1)) with
  | none => exact Or.inl rfl
  | some t1 =>
    obtain ⟨ht1f, ht1l, ht1j⟩ := exJnt_spec _ m1 t1 hx
    simp only []
    have ht1f' : t1.frames = [] := ht1f.trans hm1f
    rcases ht1j with hjmp | hjmp
    · -- fall-through: run the consequence, execute the Jump, skip alt and pad
      have ht1j0 : t1.jump = 0 := hjmp.trans hm1j
      rw [runChunk_append]
      rcases hcons t1 ht1f' ht1j0 with hnone | ⟨t2, ht2, ht2f, ht2j, ht2l⟩
      · rw [hnone]; exact Or.inl rfl
      rw [ht2]
      simp only [Option.some_bind]
      rw [runChunk, if_pos ht2j]
      have hxj : execute t2 (Code.jump offa) = some { t2 with jump := offa } := rfl
      rw [hxj]
      simp only []
      rw [runChunk_skip (altC ++ pad) { t2 with jump := offa } 0 (by simp [hlen])]
      refine Or.inr ⟨_, rfl, ht2f, rfl, ?_⟩
      simp only []
      omega
    · -- not truthy: skip the consequence and the Jump, run the alternative
      rw [runChunk_append]
      rw [runChunk_skip consC t1 1 (by omega)]
      simp only [Option.some_bind]
      rw [runChunk, if_neg (by simp)]
      rcases hpad with ⟨haltnil, hpadval, hoffa⟩ | ⟨hne, hpadval, hoffa⟩
      · subst haltnil
        subst hpadval
        simp only [List.nil_append]
        rw [runChunk, if_pos (by simp)]
        have hxn : execute { t1 with jump := 1 - 1 } Code.null =
            some { t1 with jump := 1 - 1, stack := vpush t1.stack Object.null } := rfl
        rw [hxn]
        simp only []
        rw [runChunk_nil]
        refine Or.inr ⟨_, rfl, ht1f', rfl, ?_⟩
        simp only [vpush, List.length_append, List.length_cons, List.length_nil]
        omega
      · subst hpadval
        simp only [List.append_nil]
        have hrun := haltc { t1 with jump := 1 - 1 } ht1f' (by simp)
        rcases hrun with hnone | ⟨t3, ht3, ht3f, ht3j, ht3l⟩
        · rw [hnone]; exact Or.inl rfl
        · rw [ht3]
          refine Or.inr ⟨t3, rfl, ht3f, ht3j, ?_⟩
          simp only [] at ht3l
          omega

set_option maxHeartbeats 4000000 in
theorem compile_chunk :
    (∀ stm st st1, compileStatement stm st = some st1 → nfStmt stm = Bool.true →
      ∀ d, st1.instructions = st.instructions ++ d →
        ChunkNF d ∧ EChunk d 0 ∧ (∀ Y, d = Y ++ [Code.pop] → EChunk Y 1)) ∧
    (∀ l st st1, compileStatements l st = some st1 → nfStmts l = Bool.true →
      ∀ d, st1.instructions = st.instructions ++ d →
        ChunkNF d ∧ EChunk d 0 ∧ (∀ Y, d = Y ++ [Code.pop] → EChunk Y 1)) ∧
    (∀ e st st1, compileExpression e st = some st1 → nfExpr e = Bool.true →
      ∀ d, st1.instructions = st.instructions ++ d → ChunkNF d ∧ EChunk d 1) ∧
    (∀ l st st1, compileExpressions l st = some st1 → nfExprs l = Bool.true →
      ∀ d, st1.instructions = st.instructions ++ d → ChunkNF d ∧ EChunk d l.length) := by
  apply compileStatement.mutual_induct
    (fun stm st => ∀ st1, compileStatement stm st = some st1 → nfStmt stm = Bool.true →
      ∀ d, st1.instructions = st.instructions ++ d →
        ChunkNF d ∧ EChunk d 0 ∧ (∀ Y, d = Y ++ [Code.pop] → EChunk Y 1))
    (fun l st => ∀ st1, compileStatements l st = some st1 → nfStmts l = Bool.true →
      ∀ d, st1.instructions = st.instructions ++ d →
        ChunkNF d ∧ EChunk d 0 ∧ (∀ Y, d = Y ++ [Code.pop] → EChunk Y 1))
    (fun e st => ∀ st1, compileExpression e st = some st1 → nfExpr e = Bool.true →
      ∀ d, st1.instructions = st.instructions ++ d → ChunkNF d ∧ EChunk d 1)
    (fun l st => ∀ st1, compileExpressions l st = some st1 → nfExprs l = Bool.true →
      ∀ d, st1.instructions = st.instructions ++ d → ChunkNF d ∧ EChunk d l.length)
  next =>
    intro v st name i hres st1 hc hnf d hd
    simp only [compileExpression, hres] at hc
    cases hc
    have hdv : d = [Code.getGlobal i] :=
      by simpa [emit] using hd.symm
    subst hdv
    exact ⟨chunkNF_single rfl, echunk_single (execok_getGlobal i)⟩
  next =>
    intro v st name i hres st1 hc hnf d hd
    simp only [compileExpression, hres] at hc
    cases hc
    have hdv : d = [Code.getLocal i] :=
      by simpa [emit] using hd.symm
    subst hdv
    exact ⟨chunkNF_single rfl, echunk_single (execok_getLocal i)⟩
  next =>
    intro v st hres st1 hc
    simp only [compileExpression, hres] at hc
    exact Option.noConfusion hc
  next =>
    intro v st n hp st1 hc hnf d hd
    simp only [compileExpression, hp] at hc
    cases hc
    have hdv : d = [Code.constant (Object.int n)] :=
      by simpa [emit] using hd.symm
    subst hdv
    exact ⟨chunkNF_single rfl, echunk_single (execok_constant _)⟩
  next =>
    intro v st hp st1 hc
    simp only [compileExpression, hp] at hc
    exact Option.noConfusion hc
  next =>
    intro a st st1 hc hnf d hd
    simp only [compileExpression] at hc
    cases hc
    have hdv : d = [Code.constant (Object.str a)] :=
      by simpa [emit] using hd.symm
    subst hdv
    exact ⟨chunkNF_single rfl, echunk_single (execok_constant _)⟩
  next =>
    intro st st1 hc hnf d hd
    simp only [compileExpression] at hc
    rw [if_pos trivial] at hc
    cases hc
    have hdv : d = [Code.true] :=
      by simpa [emit] using hd.symm
    subst hdv
    exact ⟨chunkNF_single rfl, echunk_single execok_true⟩
  next =>
    intro st hne st1 hc hnf d hd
    simp only [compileExpression] at hc
    rw [if_neg hne] at hc; rw [if_pos trivial] at hc
    cases hc
    have hdv : d = [Code.false] :=
      by simpa [emit] using hd.symm
    subst hdv
    exact ⟨chunkNF_single rfl, echunk_single execok_false⟩
  next =>
    intro v st h1 h2 st1 hc
    simp only [compileExpression] at hc
    rw [if_neg h1, if_neg h2] at hc
    exact Option.noConfusion hc
  next =>
    intro exprs st hnone ih st1 hc
    simp only [compileExpression, hnone] at hc
    exact Option.noConfusion hc
  next =>
    intro exprs st st1 hce ih st2 hc hnf d hd
    simp only [compileExpression, hce] at hc
    cases hc
    simp only [nfExpr] at hnf
    obtain ⟨⟨des, hdes⟩, _, _, _⟩ := compile_effects.2.2.2 exprs st st1 hce
    have hdv : d = des ++ [Code.array exprs.length] := by
      have h0 : st.instructions ++ d =
          st.instructions ++ (des ++ [Code.array exprs.length]) := by
        rw [← hd]
        simp [emit, hdes]
      exact List.append_cancel_left h0
    subst hdv
    obtain ⟨hnfes, hech⟩ := ih st1 hce hnf des hdes
    exact ⟨chunkNF_append hnfes (chunkNF_single rfl), echunk_append_arr hech⟩
  next =>
    intro operator e st hnone ih st1 hc
    simp only [compileExpression, hnone] at hc
    exact Option.noConfusion hc
  next =>
    intro e st st1 hce ih st2 hc hnf d hd
    simp only [compileExpression, hce] at hc
    rw [if_pos trivial] at hc
    cases hc
    simp only [nfExpr] at hnf
    obtain ⟨⟨de, hde⟩, _, _, _⟩ := compile_effects.2.2.1 e st st1 hce
    have hdv : d = de ++ [Code.minus] := by
      have h0 : st.instructions ++ d = st.instructions ++ (de ++ [Code.minus]) := by
        rw [← hd]
        simp [emit, hde]
      exact List.append_cancel_left h0
    subst hdv
    obtain ⟨hnfe, hech⟩ := ih st1 hce hnf de hde
    have h0 : EChunk (de ++ [Code.minus]) (1 + 0) := echunk_append hech (echunk_single execok_minus)
    exact ⟨chunkNF_append hnfe (chunkNF_single rfl), h0⟩
  next =>
    intro e st st1 hce hne ih st2 hc hnf d hd
    simp only [compileExpression, hce] at hc
    rw [if_neg hne] at hc; rw [if_pos trivial] at hc
    cases hc
    simp only [nfExpr] at hnf
    obtain ⟨⟨de, hde⟩, _, _, _⟩ := compile_effects.2.2.1 e st st1 hce
    have hdv : d = de ++ [Code.bang] := by
      have h0 : st.instructions ++ d = st.instructions ++ (de ++ [Code.bang]) := by
        rw [← hd]
        simp [emit, hde]
      exact List.append_cancel_left h0
    subst hdv
    obtain ⟨hnfe, hech⟩ := ih st1 hce hnf de hde
    have h0 : EChunk (de ++ [Code.bang]) (1 + 0) := echunk_append hech (echunk_single execok_bang)
    exact ⟨chunkNF_append hnfe (chunkNF_single rfl), h0⟩
  next =>
    intro operator e st st1 hce h1 h2 ih st2 hc
    simp only [compileExpression, hce] at hc
    rw [if_neg h1, if_neg h2] at hc
    exact Option.noConfusion hc
  next =>
    intro operator l r st hl ih st1 hc
    simp only [compileExpression, hl] at hc
    exact Option.noConfusion hc
  next =>
    intro operator l r st st1 hl hr ihl ihr st2 hc
    simp only [compileExpression, hl, hr] at hc
    exact Option.noConfusion hc
  next =>
    intro l r st st1 hl st2 hr ihl ihr st3 hc hnf d hd
    simp only [compileExpression, hl, hr] at hc
    rw [if_pos trivial] at hc
    cases hc
    simp only [nfExpr, Bool.and_eq_true] at hnf
    obtain ⟨hnfl, hnfr⟩ := hnf
    obtain ⟨⟨dl, hdl⟩, _, _, _⟩ := compile_effects.2.2.1 l st st1 hl
    obtain ⟨⟨dr, hdr⟩, _, _, _⟩ := compile_effects.2.2.1 r st1 st2 hr
    have hdv : d = dl ++ (dr ++ [Code.add]) := by
      have h0 : st.instructions ++ d = st.instructions ++ (dl ++ (dr ++ [Code.add])) := by
        rw [← hd]
        simp [emit, hdr, hdl]
      exact List.append_cancel_left h0
    subst hdv
    obtain ⟨hnfdl, hechl⟩ := ihl st1 hl hnfl dl hdl
    obtain ⟨hnfdr, hechr⟩ := ihr st2 hr hnfr dr hdr
    refine ⟨chunkNF_append hnfdl (chunkNF_append hnfdr (chunkNF_single rfl)), ?_⟩
    have hdec : EChunk ((dl ++ dr) ++ [Code.add]) 1 :=
      echunk_append_dec (echunk_append hechl hechr) (decop_arith Code.add (Or.inl rfl))
    rw [← List.append_assoc]
    exact hdec
  next =>
    intro l r st st1 hl st2 hr h1 ihl ihr st3 hc hnf d hd
    simp only [compileExpression, hl, hr] at hc
    rw [if_pos trivial] at hc
    cases hc
    simp only [nfExpr, Bool.and_eq_true] at hnf
    obtain ⟨hnfl, hnfr⟩ := hnf
    obtain ⟨⟨dl, hdl⟩, _, _, _⟩ := compile_effects.2.2.1 l st st1 hl
    obtain ⟨⟨dr, hdr⟩, _, _, _⟩ := compile_effects.2.2.1 r st1 st2 hr
    have hdv : d = dl ++ (dr ++ [Code.sub]) := by
      have h0 : st.instructions ++ d = st.instructions ++ (dl ++ (dr ++ [Code.sub])) := by
        rw [← hd]
        simp [emit, hdr, hdl]
      exact List.append_cancel_left h0
    subst hdv
    obtain ⟨hnfdl, hechl⟩ := ihl st1 hl hnfl dl hdl
    obtain ⟨hnfdr, hechr⟩ := ihr st2 hr hnfr dr hdr
    refine ⟨chunkNF_append hnfdl (chunkNF_append hnfdr (chunkNF_single rfl)), ?_⟩
    have hdec : EChunk ((dl ++ dr) ++ [Code.sub]) 1 :=
      echunk_append_dec (echunk_append hechl hechr) (decop_arith Code.sub (Or.inr (Or.inl rfl)))
    rw [← List.append_assoc]
    exact hdec
  next =>
    intro l r st st1 hl st2 hr h1 h2 ihl ihr st3 hc hnf d hd
    simp only [compileExpression, hl, hr] at hc
    rw [if_pos trivial] at hc
    cases hc
    simp only [nfExpr, Bool.and_eq_true] at hnf
    obtain ⟨hnfl, hnfr⟩ := hnf
    obtain ⟨⟨dl, hdl⟩, _, _, _⟩ := compile_effects.2.2.1 l st st1 hl
    obtain ⟨⟨dr, hdr⟩, _, _, _⟩ := compile_effects.2.2.1 r st1 st2 hr
    have hdv : d = dl ++ (dr ++ [Code.mul]) := by
      have h0 : st.instructions ++ d = st.instructions ++ (dl ++ (dr ++ [Code.mul])) := by
        rw [← hd]
        simp [emit, hdr, hdl]
      exact List.append_cancel_left h0
    subst hdv
    obtain ⟨hnfdl, hechl⟩ := ihl st1 hl hnfl dl hdl
    obtain ⟨hnfdr, hechr⟩ := ihr st2 hr hnfr dr hdr
    refine ⟨chunkNF_append hnfdl (chunkNF_append hnfdr (chunkNF_single rfl)), ?_⟩
    have hdec : EChunk ((dl ++ dr) ++ [Code.mul]) 1 :=
      echunk_append_dec (echunk_append hechl hechr) (decop_arith Code.mul (Or.inr (Or.inr (Or.inl rfl))))
    rw [← List.append_assoc]
    exact hdec
  next =>
    intro l r st st1 hl st2 hr h1 h2 h3 ihl ihr st3 hc hnf d hd
    simp only [compileExpression, hl, hr] at hc
    rw [if_pos trivial] at hc
    cases hc
    simp only [nfExpr, Bool.and_eq_true] at hnf
    obtain ⟨hnfl, hnfr⟩ := hnf
    obtain ⟨⟨dl, hdl⟩, _, _, _⟩ := compile_effects.2.2.1 l st st1 hl
    obtain ⟨⟨dr, hdr⟩, _, _, _⟩ := compile_effects.2.2.1 r st1 st2 hr
    have hdv : d = dl ++ (dr ++ [Code.div]) := by
      have h0 : st.instructions ++ d = st.instructions ++ (dl ++ (dr ++ [Code.div])) := by
        rw [← hd]
        simp [emit, hdr, hdl]
      exact List.append_cancel_left h0
    subst hdv
    obtain ⟨hnfdl, hechl⟩ := ihl st1 hl hnfl dl hdl
    obtain ⟨hnfdr, hechr⟩ := ihr st2 hr hnfr dr hdr
    refine ⟨chunkNF_append hnfdl (chunkNF_append hnfdr (chunkNF_single rfl)), ?_⟩
    have hdec : EChunk ((dl ++ dr) ++ [Code.div]) 1 :=
      echunk_append_dec (echunk_append hechl hechr) (decop_arith Code.div (Or.inr (Or.inr (Or.inr rfl))))
    rw [← List.append_assoc]
    exact hdec
  next =>
    intro l r st st1 hl st2 hr h1 h2 h3 h4 ihl ihr st3 hc hnf d hd
    simp only [compileExpression, hl, hr] at hc
    rw [if_pos trivial] at hc
    cases hc
    simp only [nfExpr, Bool.and_eq_true] at hnf
    obtain ⟨hnfl, hnfr⟩ := hnf
    obtain ⟨⟨dl, hdl⟩, _, _, _⟩ := compile_effects.2.2.1 l st st1 hl
    obtain ⟨⟨dr, hdr⟩, _, _, _⟩ := compile_effects.2.2.1 r st1 st2 hr
    have hdv : d = dl ++ (dr ++ [Code.equal]) := by
      have h0 : st.instructions ++ d = st.instructions ++ (dl ++ (dr ++ [Code.equal])) := by
        rw [← hd]
        simp [emit, hdr, hdl]
      exact List.append_cancel_left h0
    subst hdv
    obtain ⟨hnfdl, hechl⟩ := ihl st1 hl hnfl dl hdl
    obtain ⟨hnfdr, hechr⟩ := ihr st2 hr hnfr dr hdr
    refine ⟨chunkNF_append hnfdl (chunkNF_append hnfdr (chunkNF_single rfl)), ?_⟩
    have hdec : EChunk ((dl ++ dr) ++ [Code.equal]) 1 :=
      echunk_append_dec (echunk_append hechl hechr) (decop_comp Code.equal (Or.inl rfl))
    rw [← List.append_assoc]
    exact hdec
  next =>
    intro l r st st1 hl st2 hr h1 h2 h3 h4 h5 ihl ihr st3 hc hnf d hd
    simp only [compileExpression, hl, hr] at hc
    rw [if_pos trivial] at hc
    cases hc
    simp only [nfExpr, Bool.and_eq_true] at hnf
    obtain ⟨hnfl, hnfr⟩ := hnf
    obtain ⟨⟨dl, hdl⟩, _, _, _⟩ := compile_effects.2.2.1 l st st1 hl
    obtain ⟨⟨dr, hdr⟩, _, _, _⟩ := compile_effects.2.2.1 r st1 st2 hr
    have hdv : d = dl ++ (dr ++ [Code.notEqual]) := by
      have h0 : st.instructions ++ d = st.instructions ++ (dl ++ (dr ++ [Code.notEqual])) := by
        rw [← hd]
        simp [emit, hdr, hdl]
      exact List.append_cancel_left h0
    subst hdv
    obtain ⟨hnfdl, hechl⟩ := ihl st1 hl hnfl dl hdl
    obtain ⟨hnfdr, hechr⟩ := ihr st2 hr hnfr dr hdr
    refine ⟨chunkNF_append hnfdl (chunkNF_append hnfdr (chunkNF_single rfl)), ?_⟩
    have hdec : EChunk ((dl ++ dr) ++ [Code.notEqual]) 1 :=
      echunk_append_dec (echunk_append hechl hechr) (decop_comp Code.notEqual (Or.inr (Or.inl rfl)))
    rw [← List.append_assoc]
    exact hdec
  next =>
    intro l r st st1 hl st2 hr h1 h2 h3 h4 h5 h6 ihl ihr st3 hc hnf d hd
    simp only [compileExpression, hl, hr] at hc
    rw [if_pos trivial] at hc
    cases hc
    simp only [nfExpr, Bool.and_eq_true] at hnf
    obtain ⟨hnfl, hnfr⟩ := hnf
    obtain ⟨⟨dl, hdl⟩, _, _, _⟩ := compile_effects.2.2.1 l st st1 hl
    obtain ⟨⟨dr, hdr⟩, _, _, _⟩ := compile_effects.2.2.1 r st1 st2 hr
    have hdv : d = dl ++ (dr ++ [Code.greaterThan]) := by
      have h0 : st.instructions ++ d = st.instructions ++ (dl ++ (dr ++ [Code.greaterThan])) := by
        rw [← hd]
        simp [emit, hdr, hdl]
      exact List.append_cancel_left h0
    subst hdv
    obtain ⟨hnfdl, hechl⟩ := ihl st1 hl hnfl dl hdl
    obtain ⟨hnfdr, hechr⟩ := ihr st2 hr hnfr dr hdr
    refine ⟨chunkNF_append hnfdl (chunkNF_append hnfdr (chunkNF_single rfl)), ?_⟩
    have hdec : EChunk ((dl ++ dr) ++ [Code.greaterThan]) 1 :=
      echunk_append_dec (echunk_append hechl hechr) (decop_comp Code.greaterThan (Or.inr (Or.inr (Or.inl rfl))))
    rw [← List.append_assoc]
    exact hdec
  next =>
    intro l r st st1 hl st2 hr h1 h2 h3 h4 h5 h6 h7 ihl ihr st3 hc hnf d hd
    simp only [compileExpression, hl, hr] at hc
    rw [if_pos trivial] at hc
    cases hc
    simp only [nfExpr, Bool.and_eq_true] at hnf
    obtain ⟨hnfl, hnfr⟩ := hnf
    obtain ⟨⟨dl, hdl⟩, _, _, _⟩ := compile_effects.2.2.1 l st st1 hl
    obtain ⟨⟨dr, hdr⟩, _, _, _⟩ := compile_effects.2.2.1 r st1 st2 hr
    have hdv : d = dl ++ (dr ++ [Code.lessThan]) := by
      have h0 : st.instructions ++ d = st.instructions ++ (dl ++ (dr ++ [Code.lessThan])) := by
        rw [← hd]
        simp [emit, hdr, hdl]
      exact List.append_cancel_left h0
    subst hdv
    obtain ⟨hnfdl, hechl⟩ := ihl st1 hl hnfl dl hdl
    obtain ⟨hnfdr, hechr⟩ := ihr st2 hr hnfr dr hdr
    refine ⟨chunkNF_append hnfdl (chunkNF_append hnfdr (chunkNF_single rfl)), ?_⟩
    have hdec : EChunk ((dl ++ dr) ++ [Code.lessThan]) 1 :=
      echunk_append_dec (echunk_append hechl hechr) (decop_comp Code.lessThan (Or.inr (Or.inr (Or.inr rfl))))
    rw [← List.append_assoc]
    exact hdec
  next =>
    intro l r st st1 hl st2 hr h1 h2 h3 h4 h5 h6 h7 h8 ihl ihr st3 hc hnf d hd
    simp only [compileExpression, hl, hr] at hc
    rw [if_pos trivial] at hc
    cases hc
    simp only [nfExpr, Bool.and_eq_true] at hnf
    obtain ⟨hnfl, hnfr⟩ := hnf
    obtain ⟨⟨dl, hdl⟩, _, _, _⟩ := compile_effects.2.2.1 l st st1 hl
    obtain ⟨⟨dr, hdr⟩, _, _, _⟩ := compile_effects.2.2.1 r st1 st2 hr
    have hdv : d = dl ++ (dr ++ [Code.index]) := by
      have h0 : st.instructions ++ d = st.instructions ++ (dl ++ (dr ++ [Code.index])) := by
        rw [← hd]
        simp [emit, hdr, hdl]
      exact List.append_cancel_left h0
    subst hdv
    obtain ⟨hnfdl, hechl⟩ := ihl st1 hl hnfl dl hdl
    obtain ⟨hnfdr, hechr⟩ := ihr st2 hr hnfr dr hdr
    refine ⟨chunkNF_append hnfdl (chunkNF_append hnfdr (chunkNF_single rfl)), ?_⟩
    have hdec : EChunk ((dl ++ dr) ++ [Code.index]) 1 :=
      echunk_append_dec (echunk_append hechl hechr) (decop_index)
    rw [← List.append_assoc]
    exact hdec
  next =>
    intro operator l r st st1 hl st2 hr h1 h2 h3 h4 h5 h6 h7 h8 h9 ihl ihr st3 hc
    simp only [compileExpression, hl, hr] at hc
    rw [if_neg h1, if_neg h2, if_neg h3, if_neg h4, if_neg h5, if_neg h6, if_neg h7,
      if_neg h8, if_neg h9] at hc
    exact Option.noConfusion hc
  next =>
    intro c cons alt st hcnone ih st1 hc
    simp only [compileExpression, hcnone] at hc
    exact Option.noConfusion hc
  next =>
    intro c cons alt st st1 hc1 hcons ihc ihcons st' hc
    simp only [compileExpression, hc1, hcons] at hc
    exact Option.noConfusion hc
  next =>
    intro c cons alt st st1 hc1 pos st3 hcons hpc ihc ihcons st' hc
    have hpos : pos = st1.instructions.length := rfl
    rw [hpos] at hpc
    simp only [compileExpression, hc1, hcons, hpc] at hc
    exact Option.noConfusion hc
  next =>
    intro c cons alt st st1 hc1 pos st3 hcons st4 hpc halt ihc ihcons ihalt st' hc
    have hpos : pos = st1.instructions.length := rfl
    rw [hpos] at hpc
    simp only [compileExpression, hc1, hcons, hpc, halt] at hc
    exact Option.noConfusion hc
  next =>
    intro c cons alt st st1 hc1 pos st3 hcons st4 hpc st6 halt ihc ihcons ihalt st' hc hnf d hd
    have hpos : pos = st1.instructions.length := rfl
    rw [hpos] at hpc
    simp only [compileExpression, hc1, hcons, hpc, halt] at hc
    simp only [nfExpr, Bool.and_eq_true] at hnf
    obtain ⟨⟨hnfc, hnfcons⟩, hnfalt⟩ := hnf
    obtain ⟨⟨dq, hdq⟩, _, _, _⟩ := compile_effects.2.2.1 c st st1 hc1
    obtain ⟨⟨dc, hdc⟩, _, _, _⟩ := compile_effects.1 cons _ _ hcons
    have h3ins : st3.instructions = st1.instructions ++ Code.jumpNotTruthy 9999 :: dc := by
      rw [hdc]; simp [emit]
    obtain ⟨consC, hXc, hst4⟩ := patchCons_spec st1.instructions dc st3 st4 h3ins hpc
    obtain ⟨⟨da, hda⟩, _, _, _⟩ := compile_effects.1 alt _ _ halt
    have h6ins : st6.instructions = st4.instructions ++ Code.jump 9999 :: da := by
      rw [hda]; simp [emit]
    obtain ⟨altC, pad, offa, hXa, hcasesA, hst'⟩ :=
      patchAlt_spec st4.instructions da st6 st' h6ins hc
    obtain ⟨hnfdc, hechdc, hstripc⟩ := ihcons st3 hcons hnfcons dc hdc
    obtain ⟨hnfda, hechda, hstripa⟩ := ihalt st6 halt hnfalt da hda
    obtain ⟨hnfdq, hechdq⟩ := ihc st1 hc1 hnfc dq hdq
    have hconsE : EChunk consC 1 := by
      rcases hXc with rfl | h
      · exact echunk_weaken (by omega) hechdc
      · exact hstripc consC h
    have haltE : EChunk altC 1 := by
      rcases hXa with rfl | h
      · exact echunk_weaken (by omega) hechda
      · exact hstripa altC h
    have hconsNF : ChunkNF consC := by
      rcases hXc with rfl | h
      · exact hnfdc
      · rw [h] at hnfdc; exact chunkNF_of_append_left hnfdc
    have haltNF : ChunkNF altC := by
      rcases hXa with rfl | h
      · exact hnfda
      · rw [h] at hnfda; exact chunkNF_of_append_left hnfda
    have hpadNF : ChunkNF pad := by
      rcases hcasesA with ⟨_, rfl, _⟩ | ⟨_, rfl, _⟩
      · exact chunkNF_single rfl
      · exact chunkNF_nil
    have hdv : d = dq ++ Code.jumpNotTruthy (consC.length + 1) ::
        (consC ++ Code.jump offa :: (altC ++ pad)) := by
      have h0 : st.instructions ++ d = st.instructions ++
          (dq ++ Code.jumpNotTruthy (consC.length + 1) ::
            (consC ++ Code.jump offa :: (altC ++ pad))) := by
        rw [← hd, hst']
        simp [hst4, hdq]
      exact List.append_cancel_left h0
    subst hdv
    constructor
    · exact chunkNF_append hnfdq (chunkNF_cons rfl (chunkNF_append hconsNF
        (chunkNF_cons rfl (chunkNF_append haltNF hpadNF))))
    · exact echunk_cond hechdq hconsE haltE hcasesA
  next =>
    intro params body st hdp st1 hc hnf
    simp [nfExpr] at hnf
  next =>
    intro params body st st2 hdp hbody ih st1 hc hnf
    simp [nfExpr] at hnf
  next =>
    intro params body st st2 hdp st3 hbody ih st1 hc hnf
    simp [nfExpr] at hnf
  next =>
    intro f args st hf ih st1 hc hnf
    simp [nfExpr] at hnf
  next =>
    intro f args st st1 hf hargs ihf iha st2 hc hnf
    simp [nfExpr] at hnf
  next =>
    intro f args st st1 hf st2 hargs ihf iha st3 hc hnf
    simp [nfExpr] at hnf
  next =>
    intro ident expr st hce ih st1 hc
    simp only [compileStatement, hce] at hc
    exact Option.noConfusion hc
  next =>
    intro expr st st1 hce name defined hscope ih st' hc hnf d hd
    have hdef : defined = st1.symbolTable.define name := rfl
    rw [hdef] at hscope
    simp only [compileStatement, hce, hscope] at hc
    cases hc
    simp only [nfStmt, Bool.and_eq_true] at hnf
    obtain ⟨hnfi, hnfe⟩ := hnf
    obtain ⟨⟨de, hde⟩, _, _, _⟩ := compile_effects.2.2.1 expr st st1 hce
    have hdv : d = de ++ [Code.setGlobal (st1.symbolTable.define name).1.index] := by
      have h0 : st.instructions ++ d = st.instructions ++
          (de ++ [Code.setGlobal (st1.symbolTable.define name).1.index]) := by
        rw [← hd]
        simp [emit, hde]
      exact List.append_cancel_left h0
    subst hdv
    obtain ⟨hnfde, heche⟩ := ih st1 hce hnfe de hde
    refine ⟨chunkNF_append hnfde (chunkNF_single rfl),
      echunk_append_dec heche (decop_setGlobal _), ?_⟩
    intro Y hY
    exact Code.noConfusion (concat_inj hY).2
  next =>
    intro expr st st1 hce name defined hscope ih st' hc hnf d hd
    have hdef : defined = st1.symbolTable.define name := rfl
    rw [hdef] at hscope
    simp only [compileStatement, hce, hscope] at hc
    cases hc
    simp only [nfStmt, Bool.and_eq_true] at hnf
    obtain ⟨hnfi, hnfe⟩ := hnf
    obtain ⟨⟨de, hde⟩, _, _, _⟩ := compile_effects.2.2.1 expr st st1 hce
    have hdv : d = de ++ [Code.setLocal (st1.symbolTable.define name).1.index] := by
      have h0 : st.instructions ++ d = st.instructions ++
          (de ++ [Code.setLocal (st1.symbolTable.define name).1.index]) := by
        rw [← hd]
        simp [emit, hde]
      exact List.append_cancel_left h0
    subst hdv
    obtain ⟨hnfde, heche⟩ := ih st1 hce hnfe de hde
    refine ⟨chunkNF_append hnfde (chunkNF_single rfl),
      echunk_append_dec heche (decop_setLocal _), ?_⟩
    intro Y hY
    exact Code.noConfusion (concat_inj hY).2
  next =>
    intro ident expr st st1 hce hnot ih st' hc
    cases ident
    case ident n => exact absurd rfl (hnot n)
    all_goals simp only [compileStatement, hce] at hc
    all_goals exact Option.noConfusion hc
  next =>
    intro expr st hce ih st1 hc
    simp only [compileStatement, hce] at hc
    exact Option.noConfusion hc
  next =>
    intro expr st st1 hce ih st' hc hnf d hd
    simp only [compileStatement, hce] at hc
    cases hc
    simp only [nfStmt] at hnf
    obtain ⟨⟨de, hde⟩, _, _, _⟩ := compile_effects.2.2.1 expr st st1 hce
    have hdv : d = de ++ [Code.returnValue] := by
      have h0 : st.instructions ++ d = st.instructions ++ (de ++ [Code.returnValue]) := by
        rw [← hd]
        simp [emit, hde]
      exact List.append_cancel_left h0
    subst hdv
    obtain ⟨hnfde, heche⟩ := ih st1 hce hnf de hde
    refine ⟨chunkNF_append hnfde (chunkNF_single rfl), echunk_append_ret heche, ?_⟩
    intro Y hY
    exact Code.noConfusion (concat_inj hY).2
  next =>
    intro e st hce ih st1 hc
    simp only [compileStatement, hce] at hc
    exact Option.noConfusion hc
  next =>
    intro e st st1 hce ih st' hc hnf d hd
    simp only [compileStatement, hce] at hc
    cases hc
    simp only [nfStmt] at hnf
    obtain ⟨⟨de, hde⟩, _, _, _⟩ := compile_effects.2.2.1 e st st1 hce
    have hdv : d = de ++ [Code.pop] := by
      have h0 : st.instructions ++ d = st.instructions ++ (de ++ [Code.pop]) := by
        rw [← hd]
        simp [emit, hde]
      exact List.append_cancel_left h0
    subst hdv
    obtain ⟨hnfde, heche⟩ := ih st1 hce hnf de hde
    refine ⟨chunkNF_append hnfde (chunkNF_single rfl), echunk_append_pop heche, ?_⟩
    intro Y hY
    obtain ⟨h1, _⟩ := concat_inj hY
    rw [← h1]
    exact heche
  next =>
    intro stmts st ih st' hc hnf d hd
    simp only [compileStatement] at hc
    simp only [nfStmt] at hnf
    exact ih st' hc hnf d hd
  next =>
    intro st st1 hc hnf d hd
    rw [compileExpressions] at hc
    cases hc
    have hdv : d = [] := by
      have h0 : st.instructions ++ d = st.instructions ++ [] := by simp [← hd]
      exact List.append_cancel_left h0
    subst hdv
    exact ⟨chunkNF_nil, echunk_nil⟩
  next =>
    intro e rest st hnone ih st1 hc
    simp only [compileExpressions, hnone] at hc
    exact Option.noConfusion hc
  next =>
    intro e rest st st1 hce ihe ihr st2 hc hnf d hd
    simp only [compileExpressions, hce] at hc
    simp only [nfExprs, Bool.and_eq_true] at hnf
    obtain ⟨hnfe, hnfr⟩ := hnf
    obtain ⟨⟨de, hde⟩, _, _, _⟩ := compile_effects.2.2.1 e st st1 hce
    obtain ⟨⟨dr, hdr⟩, _, _, _⟩ := compile_effects.2.2.2 rest st1 st2 hc
    have hdv : d = de ++ dr := by
      have h0 : st.instructions ++ d = st.instructions ++ (de ++ dr) := by
        rw [← hd, hdr, hde]
        simp
      exact List.append_cancel_left h0
    subst hdv
    obtain ⟨hnf1, hech1⟩ := ihe st1 hce hnfe de hde
    obtain ⟨hnf2, hech2⟩ := ihr st2 hc hnfr dr hdr
    refine ⟨chunkNF_append hnf1 hnf2, ?_⟩
    have hcomb := echunk_append hech1 hech2
    exact echunk_weaken (by simp only [List.length_cons]; omega) hcomb
  next =>
    intro st st1 hc hnf d hd
    rw [compileStatements] at hc
    cases hc
    have hdv : d = [] := by
      have h0 : st.instructions ++ d = st.instructions ++ [] := by simp [← hd]
      exact List.append_cancel_left h0
    subst hdv
    refine ⟨chunkNF_nil, echunk_nil, ?_⟩
    intro Y hY
    exact absurd hY (by simp)
  next =>
    intro s rest st hnone ih st1 hc
    simp only [compileStatements, hnone] at hc
    exact Option.noConfusion hc
  next =>
    intro s rest st st1 hcs ihs ihr st2 hc hnf d hd
    simp only [compileStatements, hcs] at hc
    simp only [nfStmts, Bool.and_eq_true] at hnf
    obtain ⟨hnfs, hnfr⟩ := hnf
    obtain ⟨⟨d1, hd1⟩, _, _, _⟩ := compile_effects.1 s st st1 hcs
    obtain ⟨⟨d2, hd2⟩, _, _, _⟩ := compile_effects.2.1 rest st1 st2 hc
    have hdv : d = d1 ++ d2 := by
      have h0 : st.instructions ++ d = st.instructions ++ (d1 ++ d2) := by
        rw [← hd, hd2, hd1]
        simp
      exact List.append_cancel_left h0
    subst hdv
    obtain ⟨hnf1, hech1, hstrip1⟩ := ihs st1 hcs hnfs d1 hd1
    obtain ⟨hnf2, hech2, hstrip2⟩ := ihr st2 hc hnfr d2 hd2
    refine ⟨chunkNF_append hnf1 hnf2, echunk_append hech1 hech2, ?_⟩
    intro Y hY
    rcases append_concat_split hY with ⟨h2nil, h1eq⟩ | ⟨Y2, h2eq, hYeq⟩
    · exact hstrip1 Y h1eq
    · subst hYeq
      exact echunk_append hech1 (hstrip2 Y2 h2eq)

/-- C3 (counterexample): the program 1 + 2; compiles to
Constant 1, Constant 2, Add, Pop, whose complete run ends with an empty
stack - zero values above the starting depth, not one. -/
theorem c3_counterexample :
    compilerRun progAddTwo (SymbolTable.new none) = some (codeAddTwo, SymbolTable.new none) ∧
    runFuel 5 (vmNew codeAddTwo []) =
      RunOutcome.ok ⟨[], [], [], 0, some (Object.int 3), 0, []⟩ ∧
    ([] : List Object).length ≠ 0 + 1 := by
  refine ⟨?_, rfl, by decide⟩
  simp [progAddTwo, stmtAddTwo, codeAddTwo, compilerRun, compileStatements, compileStatement,
    compileExpression, compileExpressions, SymbolTable.new, emit, parseI32, parseDigits,
    digitVal]

/-- C3 (amended): for every function-free and call-free AST the compiler
accepts, the emitted top-level instruction vector has balanced net stack
effect zero per statement: run with fuel beyond its length from an empty
stack, the VM either stops at a fatal runtime error or halts with the
value stack empty again (each expression statement pushes one value and
pops it; each let statement pushes one value and binds it), never out of
fuel. -/
theorem c3_amended_balanced :
    ∀ input code t g, nfStmts input = Bool.true →
    compilerRun input (SymbolTable.new none) = some (code, t) →
    runFuel (code.length + 1) (vmNew code g) = RunOutcome.fatal ∨
    ∃ s, runFuel (code.length + 1) (vmNew code g) = RunOutcome.ok s ∧
      s.stack = [] ∧ s.frames = [] := by
  intro input code t g hnf hc
  rw [compilerRun] at hc
  cases hcs : compileStatements input ⟨[], [], SymbolTable.new none⟩ with
  | none => rw [hcs] at hc; exact absurd hc (by simp)
  | some stf =>
    simp only [hcs, Option.some.injEq, Prod.mk.injEq] at hc
    obtain ⟨h1, h2⟩ := hc
    subst h1
    obtain ⟨hnfd, hech, hstrip⟩ := compile_chunk.2.1 input ⟨[], [], SymbolTable.new none⟩
      stf hcs hnf stf.instructions (by simp)
    have hb := runFuel_chunk stf.instructions (vmNew [] g) hnfd rfl
    rcases hech (vmNew [] g) rfl rfl with hnone | ⟨tt, htt, httf, httj, httl⟩
    · left
      rw [hnone] at hb
      exact hb
    · right
      refine ⟨{ tt with instructions := [] }, ?_, ?_, httf⟩
      · rw [htt] at hb
        exact hb
      · have hlen : tt.stack.length = 0 := by
          have h0 : tt.stack.length ≤ 0 := httl
          omega
        exact List.length_eq_zero.mp hlen

theorem c3_amended_witness :
    nfStmts progAddTwo = Bool.true ∧
    compilerRun progAddTwo (SymbolTable.new none) = some (codeAddTwo, SymbolTable.new none) ∧
    (runFuel (codeAddTwo.length + 1) (vmNew codeAddTwo []) = RunOutcome.fatal ∨
     ∃ s, runFuel (codeAddTwo.length + 1) (vmNew codeAddTwo []) = RunOutcome.ok s ∧
       s.stack = [] ∧ s.frames = []) := by
  have hnf : nfStmts progAddTwo = Bool.true := by
    simp [progAddTwo, stmtAddTwo, nfStmts, nfStmt, nfExpr]
  have hc : compilerRun progAddTwo (SymbolTable.new none) =
      some (codeAddTwo, SymbolTable.new none) := by
    simp [progAddTwo, stmtAddTwo, codeAddTwo, compilerRun, compileStatements,
      compileStatement, compileExpression, compileExpressions, SymbolTable.new, emit,
      parseI32, parseDigits, digitVal]
  exact ⟨hnf, hc, c3_amended_balanced progAddTwo codeAddTwo (SymbolTable.new none) [] hnf hc⟩
